import Mathlib

/-!
Speck-Crypto: the cipher engine of `main.cpp`.

A shallow embedding of the class `Speck` (rotations, round transform, key
schedule, byte/block packing, `encrypt_text`, `decrypt_text`) and of the
function `transformKey`.

* a `uint64_t` is a `Nat` below `2 ^ 64`; every operation that can leave the
  range is followed by `% 2 ^ 64`;
* a `uint8_t` is a `Nat` below `256`; a `string` or `vector<uint8_t>` is a
  `List Nat` of such values;
* a `vector` read or write by index is checked: an index outside the vector
  makes the function return `none`;
* a shift count is computed as the source computes it (in `size_t`
  arithmetic, modulo `2 ^ 64`) and kept apart from the shift itself
  (`shift_first`, `shift_second`, `shl64`).
-/

namespace Speck

/-! ## Machine words -/

/-- The predicate "is a `uint64_t` value". -/
def isWord (x : Nat) : Prop := x < 2 ^ 64

instance (x : Nat) : Decidable (isWord x) := by unfold isWord; infer_instance

/-- The predicate "is a buffer of `uint8_t` values". -/
def isBytes (buf : List Nat) : Prop := ∀ b ∈ buf, b < 256

instance (buf : List Nat) : Decidable (isBytes buf) := by unfold isBytes; infer_instance

/-- The predicate "is a sequence of `uint64_t` values". -/
def isWords (ws : List Nat) : Prop := ∀ w ∈ ws, w < 2 ^ 64

instance (ws : List Nat) : Decidable (isWords ws) := by unfold isWords; infer_instance

/-- The predicate "is a sequence of blocks of two `uint64_t` values". -/
def isBlocks (bs : List (Nat × Nat)) : Prop := ∀ b ∈ bs, b.1 < 2 ^ 64 ∧ b.2 < 2 ^ 64

instance (bs : List (Nat × Nat)) : Decidable (isBlocks bs) := by unfold isBlocks; infer_instance

/-- The member `alpha` of the class. -/
def alpha : Nat := 3

/-- The member `beta` of the class. -/
def beta : Nat := 8

/-- The member `rounds` of the class. -/
def rounds : Nat := 32

/-- `x << c` on a `uint64_t`: the bits shifted past bit 63 are dropped. The
count is taken modulo 64, which is the identity on the counts `0 .. 63` the
language defines; for a larger count the language leaves the shift undefined
and the 64-bit shift instruction of the target machine (x86-64 `shl`, AArch64
`lsl`), which the compiler emits for a count held in a register, uses the low
six bits of the count. The rotations and `transformKey` shift by counts below
64 only; the second-word branch of `bytes_to_blocks` does not, and `shl64_with`
leaves its result open. -/
def shl64 (x c : Nat) : Nat := (x <<< (c % 64)) % 2 ^ 64

/-- `rotate_left(x, n)`: `(x << n) | (x >> (64 - n))`. -/
def rotate_left (x n : Nat) : Nat := shl64 x n ||| (x >>> (64 - n))

/-- `rotate_right(x, n)`: `(x >> n) | (x << (64 - n))`. -/
def rotate_right (x n : Nat) : Nat := (x >>> n) ||| shl64 x (64 - n)

/-! ## Round transform -/

/-- A block: the pair of words `(x, y)`. -/
abbrev Block := Nat × Nat

/-- `speck_round(x, y, k)`; the two references are returned as a pair. -/
def speck_round (x y k : Nat) : Block :=
  let x := rotate_right x beta
  let x := (x + y) % 2 ^ 64
  let x := x ^^^ k
  let y := rotate_left y alpha
  let y := y ^^^ x
  (x, y)

/-- `speck_inv_round(x, y, k)`; `x -= y` is subtraction modulo `2 ^ 64`. -/
def speck_inv_round (x y k : Nat) : Block :=
  let y := y ^^^ x
  let y := rotate_right y alpha
  let x := x ^^^ k
  let x := (x + (2 ^ 64 - y % 2 ^ 64)) % 2 ^ 64
  let x := rotate_left x beta
  (x, y)

/-! ## Key schedule -/

/-- `v[i] = a` on a `vector`: defined for an index inside the vector only. -/
def write {α : Type} (v : List α) (i : Nat) (a : α) : Option (List α) :=
  if i < v.length then some (v.set i a) else none

/-- The body of the loop of `key_schedule` on the state `(l, k, round_keys)`;
`i` is a `uint32_t`, so `i + 1` is taken modulo `2 ^ 32`. -/
def key_schedule_step (s : Nat × Nat × List Nat) (i : Nat) : Option (Nat × Nat × List Nat) :=
  let l := rotate_left s.1 alpha
  let l := l ^^^ s.2.1
  let k := rotate_right s.2.1 beta
  let k := k ^^^ ((i + 1) % 2 ^ 32)
  (write s.2.2 (i + 1) k).bind fun round_keys => some (l, k, round_keys)

/-- `key_schedule(key)`: `round_keys` starts as `rounds` zero words; the loop
runs for `i = 0 .. rounds - 2`. -/
def key_schedule (key : List Nat) : Option (List Nat) :=
  let round_keys := List.replicate rounds 0
  key[1]?.bind fun l =>
  key[0]?.bind fun k =>
  (write round_keys 0 k).bind fun round_keys =>
  ((List.range (rounds - 1)).foldlM key_schedule_step (l, k, round_keys)).bind fun s =>
  some s.2.2

/-! ## Byte and block packing -/

/-- `string_to_bytes(text)`: the characters of the string as `uint8_t`. -/
def string_to_bytes (text : List Nat) : List Nat := text

/-- The shift count `(i % 8) * 8` of the first-word branch of
`bytes_to_blocks`, in `size_t` arithmetic. -/
def shift_first (i : Nat) : Nat := ((i % 8) * 8) % 2 ^ 64

/-- The shift count `((i % 8) - 8) * 8` of the second-word branch of
`bytes_to_blocks`, in `size_t` arithmetic: the subtraction and the
multiplication wrap modulo `2 ^ 64`. -/
def shift_second (i : Nat) : Nat := (((i % 8 + (2 ^ 64 - 8)) % 2 ^ 64) * 8) % 2 ^ 64

/-- The body of the loop of `bytes_to_blocks` at index `i`. -/
def bytes_to_blocks_step (bytes : List Nat) (blocks : List Block) (i : Nat) :
    Option (List Block) :=
  bytes[i]?.bind fun byte =>
  blocks[i / 16]?.bind fun blk =>
  if i % 16 < 8 then
    write blocks (i / 16) (blk.1 ||| shl64 byte (shift_first i), blk.2)
  else
    write blocks (i / 16) (blk.1, blk.2 ||| shl64 byte (shift_second i))

/-- `bytes_to_blocks(bytes)`: `(size + 15) / 16` zero blocks, then one pass
over the byte indices. -/
def bytes_to_blocks (bytes : List Nat) : Option (List Block) :=
  let num_blocks := (bytes.length + 15) / 16
  let blocks : List Block := List.replicate num_blocks (0, 0)
  (List.range bytes.length).foldlM (bytes_to_blocks_step bytes) blocks

/-- The eight bytes pushed for one word by `blocks_to_bytes`:
`static_cast<uint8_t>((w >> (i * 8)) & 0xFF)` for `i = 0 .. 7`. -/
def word_bytes (w : Nat) : List Nat :=
  (List.range 8).map fun i => ((w >>> (i * 8)) &&& 0xFF) % 256

/-- `blocks_to_bytes(blocks)`. -/
def blocks_to_bytes : List Block → List Nat
  | [] => []
  | block :: rest => word_bytes block.1 ++ word_bytes block.2 ++ blocks_to_bytes rest

/-! ## Encryption and decryption -/

/-- The loop `while (blocks.size() % 2 != 0) blocks.push_back({0, 0})`: its body
runs at most once, since one more block makes the size even. -/
def pad_even (blocks : List Block) : List Block :=
  if blocks.length % 2 ≠ 0 then blocks ++ [(0, 0)] else blocks

/-- The inner loop of `encrypt_text` on one block: `speck_round` with
`round_keys[i]` for `i = 0 .. rounds - 1`. -/
def encrypt_block (round_keys : List Nat) (block : Block) : Option Block :=
  (List.range rounds).foldlM
    (fun (b : Block) i => round_keys[i]?.bind fun k => some (speck_round b.1 b.2 k)) block

/-- The inner loop of `decrypt_text` on one block: `speck_inv_round` with
`round_keys[i]` for `i = rounds - 1` down to `0`. -/
def decrypt_block (round_keys : List Nat) (block : Block) : Option Block :=
  (List.range rounds).reverse.foldlM
    (fun (b : Block) i => round_keys[i]?.bind fun k => some (speck_inv_round b.1 b.2 k)) block

/-- `encrypt_text(plaintext, round_keys)`. -/
def encrypt_text (plaintext : List Nat) (round_keys : List Nat) : Option (List Nat) :=
  let plaintext_bytes := string_to_bytes plaintext
  (bytes_to_blocks plaintext_bytes).bind fun blocks =>
  let blocks := pad_even blocks
  (blocks.mapM (encrypt_block round_keys)).bind fun blocks =>
  some (blocks_to_bytes blocks)

/-- The loop `while (!bytes.empty() && bytes.back() == 0) bytes.pop_back()`,
with the number of iterations bounded by `n`. -/
def strip_loop : Nat → List Nat → List Nat
  | 0, bytes => bytes
  | n + 1, bytes =>
    match bytes.getLast? with
    | some 0 => strip_loop n bytes.dropLast
    | _ => bytes

/-- The stripping loop of `decrypt_text`; it removes one byte per iteration, so
`bytes.length` iterations are enough. -/
def strip_zeros (bytes : List Nat) : List Nat := strip_loop bytes.length bytes

/-- `decrypt_text(ciphertext, round_keys)`. -/
def decrypt_text (ciphertext : List Nat) (round_keys : List Nat) : Option (List Nat) :=
  let ciphertext_bytes := string_to_bytes ciphertext
  (bytes_to_blocks ciphertext_bytes).bind fun blocks =>
  (blocks.mapM (decrypt_block round_keys)).bind fun blocks =>
  let plaintext_bytes := blocks_to_bytes blocks
  some (strip_zeros plaintext_bytes)

/-- The bytes `decrypt_text` holds in `plaintext_bytes` before its stripping
loop: `decrypt_text` up to and including `blocks_to_bytes(blocks)`. -/
def decrypt_unstripped (ciphertext : List Nat) (round_keys : List Nat) : Option (List Nat) :=
  let ciphertext_bytes := string_to_bytes ciphertext
  (bytes_to_blocks ciphertext_bytes).bind fun blocks =>
  (blocks.mapM (decrypt_block round_keys)).bind fun blocks =>
  some (blocks_to_bytes blocks)

/-! ## The shift with an open result for an out-of-range count

The language defines `x << c` on a `uint64_t` for the counts `0 .. 63` only.
The definitions of this section are those of `bytes_to_blocks`, `encrypt_text`
and `decrypt_text` again, with the result of a shift by a larger count taken
from a function `oob`, so that a statement can be read against any behaviour of
the out-of-range shift and not only against the one of `shl64`. -/

/-- `x << c` on a `uint64_t`, as the language defines it for `c < 64`; for a
larger count the result is `oob x c`. -/
def shl64_with (oob : Nat → Nat → Nat) (x c : Nat) : Nat :=
  if c < 64 then (x <<< c) % 2 ^ 64 else oob x c

/-- The out-of-range behaviour of `shl64`: the count is taken modulo 64. -/
def shift_masked (x c : Nat) : Nat := (x <<< (c % 64)) % 2 ^ 64

/-- An out-of-range behaviour that yields zero: every bit is shifted out. -/
def shift_zero (_x _c : Nat) : Nat := 0

/-- The body of the loop of `bytes_to_blocks` at index `i`, the out-of-range
shift given by `oob`. -/
def bytes_to_blocks_step_with (oob : Nat → Nat → Nat) (bytes : List Nat) (blocks : List Block)
    (i : Nat) : Option (List Block) :=
  bytes[i]?.bind fun byte =>
  blocks[i / 16]?.bind fun blk =>
  if i % 16 < 8 then
    write blocks (i / 16) (blk.1 ||| shl64_with oob byte (shift_first i), blk.2)
  else
    write blocks (i / 16) (blk.1, blk.2 ||| shl64_with oob byte (shift_second i))

/-- `bytes_to_blocks(bytes)`, the out-of-range shift given by `oob`. -/
def bytes_to_blocks_with (oob : Nat → Nat → Nat) (bytes : List Nat) : Option (List Block) :=
  let num_blocks := (bytes.length + 15) / 16
  let blocks : List Block := List.replicate num_blocks (0, 0)
  (List.range bytes.length).foldlM (bytes_to_blocks_step_with oob bytes) blocks

/-- `encrypt_text(plaintext, round_keys)`, the out-of-range shift of
`bytes_to_blocks` given by `oob`. -/
def encrypt_text_with (oob : Nat → Nat → Nat) (plaintext : List Nat) (round_keys : List Nat) :
    Option (List Nat) :=
  let plaintext_bytes := string_to_bytes plaintext
  (bytes_to_blocks_with oob plaintext_bytes).bind fun blocks =>
  let blocks := pad_even blocks
  (blocks.mapM (encrypt_block round_keys)).bind fun blocks =>
  some (blocks_to_bytes blocks)

/-- `decrypt_text(ciphertext, round_keys)`, the out-of-range shift of
`bytes_to_blocks` given by `oob`. -/
def decrypt_text_with (oob : Nat → Nat → Nat) (ciphertext : List Nat) (round_keys : List Nat) :
    Option (List Nat) :=
  let ciphertext_bytes := string_to_bytes ciphertext
  (bytes_to_blocks_with oob ciphertext_bytes).bind fun blocks =>
  (blocks.mapM (decrypt_block round_keys)).bind fun blocks =>
  let plaintext_bytes := blocks_to_bytes blocks
  some (strip_zeros plaintext_bytes)

/-! ## Key transformation -/

/-- How a call ends when it does not return: `exit(status)`, or an access to a
`string` or `vector` outside its bounds. -/
inductive Stop where
  | exit (status : Nat)
  | out_of_range

/-- `v[i]` on a `string` or `vector`, checked. -/
def read_at (v : List Nat) (i : Nat) : Except Stop Nat :=
  match v[i]? with
  | some a => Except.ok a
  | none => Except.error Stop.out_of_range

/-- `v[i] = a` on a `vector`, checked. -/
def write_at (v : List Nat) (i : Nat) (a : Nat) : Except Stop (List Nat) :=
  if i < v.length then Except.ok (v.set i a) else Except.error Stop.out_of_range

/-- The body of a loop of `transformKey`:
`key[slot] |= static_cast<uint64_t>(static_cast<uint8_t>(key_str[i + off])) << (i * 8)`,
the count `i * 8` in `size_t` arithmetic. -/
def transformKey_step (key_str : List Nat) (slot off : Nat) (key : List Nat) (i : Nat) :
    Except Stop (List Nat) :=
  (read_at key_str (i + off)).bind fun c =>
  (read_at key slot).bind fun w =>
  write_at key slot (w ||| shl64 (c % 256) ((i * 8) % 2 ^ 64))

/-- `transformKey(key_str)`: `exit(1)` unless the string has 16 characters;
otherwise a vector of two words, filled by the two loops over `i = 0 .. 7`. -/
def transformKey (key_str : List Nat) : Except Stop (List Nat) :=
  if key_str.length ≠ 16 then Except.error (Stop.exit 1)
  else
    let key := List.replicate 2 0
    (write_at key 0 0).bind fun key =>
    (write_at key 1 0).bind fun key =>
    ((List.range 8).foldlM (transformKey_step key_str 0 0) key).bind fun key =>
    ((List.range 8).foldlM (transformKey_step key_str 1 8) key).bind fun key =>
    Except.ok key

/-! ## Specification-side functions -/

/-- The little-endian value of the `n` bytes of `buf` from offset `off` on,
every position past the end of `buf` read as a zero byte:
the sum of `buf[off + j] * 2 ^ (8 * j)` for `j < n`. -/
def le_sum (buf : List Nat) (off : Nat) : Nat → Nat
  | 0 => 0
  | n + 1 => le_sum buf off n + buf.getD (off + n) 0 * 2 ^ (8 * n)

/-- The block packed from the 16 bytes of `buf` at block index `b`. -/
def block_at (buf : List Nat) (b : Nat) : Block :=
  (le_sum buf (16 * b) 8, le_sum buf (16 * b + 8) 8)

/-- The first `n` blocks packed from `buf`. -/
def pack (buf : List Nat) (n : Nat) : List Block := (List.range n).map (block_at buf)

/-- The number of blocks `encrypt_text` works on for a plaintext of `len` bytes:
`(len + 15) / 16`, plus one when that is odd. -/
def enc_blocks (len : Nat) : Nat := (len + 15) / 16 + ((len + 15) / 16) % 2

/-- The buffer `buf` cut or right-padded with zero bytes to length `n`. -/
def padded (buf : List Nat) (n : Nat) : List Nat := (List.range n).map fun i => buf.getD i 0

/-- All 32 rounds on one block with the keys `rk`, as a pure function. -/
def enc_rounds (rk : List Nat) (b : Block) : Block :=
  (List.range rounds).foldl (fun (b : Block) i => speck_round b.1 b.2 (rk.getD i 0)) b

/-- All 32 inverse rounds on one block with the keys `rk`, as a pure function. -/
def dec_rounds (rk : List Nat) (b : Block) : Block :=
  (List.range rounds).reverse.foldl (fun (b : Block) i => speck_inv_round b.1 b.2 (rk.getD i 0)) b

/-- The `i`-th round key for the first key word `k0`. -/
def round_key (k0 : Nat) : Nat → Nat
  | 0 => k0
  | i + 1 => rotate_right (round_key k0 i) beta ^^^ ((i + 1) % 2 ^ 32)

/-- The length of the trailing run of zero bytes of a buffer. -/
def trailing_zeros (bytes : List Nat) : Nat := (bytes.reverse.takeWhile (· == 0)).length

/-! ## Words and rotations -/

theorem rotate_left_lt (x n : Nat) (hx : x < 2 ^ 64) : rotate_left x n < 2 ^ 64 := by
  unfold rotate_left shl64
  apply Nat.or_lt_two_pow (Nat.mod_lt _ (by decide))
  exact lt_of_le_of_lt (by rw [Nat.shiftRight_eq_div_pow]; exact Nat.div_le_self _ _) hx

theorem rotate_right_lt (x n : Nat) (hx : x < 2 ^ 64) : rotate_right x n < 2 ^ 64 := by
  unfold rotate_right shl64
  apply Nat.or_lt_two_pow _ (Nat.mod_lt _ (by decide))
  exact lt_of_le_of_lt (by rw [Nat.shiftRight_eq_div_pow]; exact Nat.div_le_self _ _) hx

theorem testBit_rotate_left (x n i : Nat) (hx : x < 2 ^ 64) (hn : n < 64) (h0 : 0 < n) :
    (rotate_left x n).testBit i = (decide (i < 64) && x.testBit ((i + (64 - n)) % 64)) := by
  unfold rotate_left shl64
  rw [Nat.mod_eq_of_lt hn, Nat.testBit_or, Nat.testBit_mod_two_pow, Nat.testBit_shiftLeft, Nat.testBit_shiftRight]
  by_cases hi : i < 64
  · by_cases hin : n ≤ i
    · have e1 : (i + (64 - n)) % 64 = i - n := by omega
      have e2 : x.testBit (64 - n + i) = false :=
        Nat.testBit_lt_two_pow (lt_of_lt_of_le hx (Nat.pow_le_pow_right (by decide) (by omega)))
      simp [hi, hin, e1, e2]
    · have e1 : (i + (64 - n)) % 64 = 64 - n + i := by omega
      simp [hi, hin, e1]
  · have e2 : x.testBit (64 - n + i) = false :=
      Nat.testBit_lt_two_pow (lt_of_lt_of_le hx (Nat.pow_le_pow_right (by decide) (by omega)))
    simp [hi, e2]

theorem testBit_rotate_right (x n i : Nat) (hx : x < 2 ^ 64) (hn : n < 64) (h0 : 0 < n) :
    (rotate_right x n).testBit i = (decide (i < 64) && x.testBit ((i + n) % 64)) := by
  unfold rotate_right shl64
  rw [Nat.mod_eq_of_lt (show 64 - n < 64 by omega), Nat.testBit_or, Nat.testBit_mod_two_pow, Nat.testBit_shiftLeft, Nat.testBit_shiftRight]
  by_cases hi : i < 64
  · by_cases hin : 64 - n ≤ i
    · have e1 : (i + n) % 64 = i - (64 - n) := by omega
      have e2 : x.testBit (n + i) = false :=
        Nat.testBit_lt_two_pow (lt_of_lt_of_le hx (Nat.pow_le_pow_right (by decide) (by omega)))
      simp [hi, hin, e1, e2]
    · have e1 : (i + n) % 64 = n + i := by omega
      simp [hi, hin, e1]
  · have e2 : x.testBit (n + i) = false :=
      Nat.testBit_lt_two_pow (lt_of_lt_of_le hx (Nat.pow_le_pow_right (by decide) (by omega)))
    simp [hi, e2]

theorem rotate_left_rotate_right (x n : Nat) (hx : x < 2 ^ 64) (hn : n < 64) (h0 : 0 < n) :
    rotate_left (rotate_right x n) n = x := by
  apply Nat.eq_of_testBit_eq
  intro i
  rw [testBit_rotate_left _ _ _ (rotate_right_lt x n hx) hn h0,
    testBit_rotate_right _ _ _ hx hn h0]
  by_cases hi : i < 64
  · have e : ((i + (64 - n)) % 64 + n) % 64 = i := by omega
    have e3 : (i + (64 - n)) % 64 < 64 := Nat.mod_lt _ (by decide)
    simp [hi, e, e3]
  · have e2 : x.testBit i = false :=
      Nat.testBit_lt_two_pow (lt_of_lt_of_le hx (Nat.pow_le_pow_right (by decide) (by omega)))
    simp [hi, e2]

theorem rotate_right_rotate_left (x n : Nat) (hx : x < 2 ^ 64) (hn : n < 64) (h0 : 0 < n) :
    rotate_right (rotate_left x n) n = x := by
  apply Nat.eq_of_testBit_eq
  intro i
  rw [testBit_rotate_right _ _ _ (rotate_left_lt x n hx) hn h0,
    testBit_rotate_left _ _ _ hx hn h0]
  by_cases hi : i < 64
  · have e : ((i + n) % 64 + (64 - n)) % 64 = i := by omega
    have e3 : (i + n) % 64 < 64 := Nat.mod_lt _ (by decide)
    simp [hi, e, e3]
  · have e2 : x.testBit i = false :=
      Nat.testBit_lt_two_pow (lt_of_lt_of_le hx (Nat.pow_le_pow_right (by decide) (by omega)))
    simp [hi, e2]

theorem add_sub_word (a b : Nat) (ha : a < 2 ^ 64) :
    ((a + b) % 2 ^ 64 + (2 ^ 64 - b % 2 ^ 64)) % 2 ^ 64 = a := by
  norm_num at *
  omega

theorem sub_add_word (a b : Nat) (ha : a < 2 ^ 64) :
    ((a + (2 ^ 64 - b % 2 ^ 64)) % 2 ^ 64 + b) % 2 ^ 64 = a := by
  norm_num at *
  omega

theorem speck_round_fst_lt (x y k : Nat) (hk : k < 2 ^ 64) :
    (speck_round x y k).1 < 2 ^ 64 := by
  unfold speck_round
  exact Nat.xor_lt_two_pow (Nat.mod_lt _ (by decide)) hk

theorem speck_round_snd_lt (x y k : Nat) (hy : y < 2 ^ 64) (hk : k < 2 ^ 64) :
    (speck_round x y k).2 < 2 ^ 64 := by
  unfold speck_round
  exact Nat.xor_lt_two_pow (rotate_left_lt y alpha hy)
    (Nat.xor_lt_two_pow (Nat.mod_lt _ (by decide)) hk)

theorem speck_inv_round_speck_round (x y k : Nat) (hx : x < 2 ^ 64) (hy : y < 2 ^ 64) :
    speck_inv_round (speck_round x y k).1 (speck_round x y k).2 k = (x, y) := by
  unfold speck_inv_round speck_round
  simp only
  have h1 : (rotate_left y alpha ^^^ ((rotate_right x beta + y) % 2 ^ 64 ^^^ k))
      ^^^ ((rotate_right x beta + y) % 2 ^ 64 ^^^ k) = rotate_left y alpha :=
    Nat.xor_cancel_right _ _
  rw [h1, rotate_right_rotate_left y alpha hy (by decide) (by decide), Nat.xor_cancel_right,
    add_sub_word _ _ (rotate_right_lt x beta hx),
    rotate_left_rotate_right x beta hx (by decide) (by decide)]

/-! ## Key schedule -/

theorem write_append_replicate (pre : List Nat) (m v : Nat) :
    write (pre ++ List.replicate (m + 1) 0) pre.length v
      = some ((pre ++ [v]) ++ List.replicate m 0) := by
  unfold write
  have h : pre.length < (pre ++ List.replicate (m + 1) 0).length := by simp
  rw [if_pos h]
  congr 1
  rw [List.set_append_right _ _ (le_refl _)]
  simp [List.replicate_succ]

theorem key_schedule_loop (l k0 n : Nat) (hn : n ≤ 31) :
    ∃ l', (List.range n).foldlM key_schedule_step (l, k0, k0 :: List.replicate 31 0)
      = some (l', round_key k0 n,
          (List.range (n + 1)).map (round_key k0) ++ List.replicate (31 - n) 0) := by
  induction n with
  | zero => exact ⟨l, rfl⟩
  | succ n ih =>
    obtain ⟨l', h⟩ := ih (by omega)
    refine ⟨rotate_left l' alpha ^^^ round_key k0 n, ?_⟩
    rw [List.range_succ, List.foldlM_append, h]
    have e : 31 - n = (31 - (n + 1)) + 1 := by omega
    have hw := write_append_replicate ((List.range (n + 1)).map (round_key k0)) (31 - (n + 1))
      (rotate_right (round_key k0 n) beta ^^^ ((n + 1) % 2 ^ 32))
    simp only [List.length_map, List.length_range] at hw
    simp only [List.foldlM_cons, List.foldlM_nil, Option.some_bind, Option.pure_def,
      Option.bind_eq_bind, key_schedule_step, e, hw, Option.bind_some]
    rw [List.range_succ (n + 1), List.map_append]
    simp [round_key]

theorem write_replicate_zero (k0 : Nat) :
    write (List.replicate rounds 0) 0 k0 = some (k0 :: List.replicate 31 0) := by
  unfold write
  rw [if_pos (by simp [rounds])]
  rfl

theorem key_schedule_eq (k0 k1 : Nat) :
    key_schedule [k0, k1] = some ((List.range 32).map (round_key k0)) := by
  obtain ⟨l', h⟩ := key_schedule_loop k1 k0 31 (le_refl _)
  have hr : rounds - 1 = 31 := rfl
  have e1 : ([k0, k1] : List Nat)[1]? = some k1 := rfl
  have e0 : ([k0, k1] : List Nat)[0]? = some k0 := rfl
  unfold key_schedule
  rw [e1, e0, Option.some_bind, Option.some_bind, write_replicate_zero, Option.some_bind, hr, h,
    Option.some_bind, Nat.sub_self, List.replicate_zero, List.append_nil]

theorem round_key_lt (k0 : Nat) (h0 : k0 < 2 ^ 64) (i : Nat) (hi : i < 2 ^ 32) :
    round_key k0 i < 2 ^ 64 := by
  induction i with
  | zero => exact h0
  | succ i ih =>
    unfold round_key
    refine Nat.xor_lt_two_pow (rotate_right_lt _ _ (ih (by omega))) ?_
    exact lt_of_lt_of_le (Nat.mod_lt _ (by decide)) (by norm_num)

/-! ## Little-endian sums -/

theorem getD_lt_of_isBytes (buf : List Nat) (h : isBytes buf) (i : Nat) : buf.getD i 0 < 256 := by
  rw [List.getD_eq_getElem?_getD]
  by_cases hi : i < buf.length
  · rw [List.getElem?_eq_getElem hi]
    exact h _ (List.getElem_mem hi)
  · rw [List.getElem?_eq_none (by omega)]
    decide

theorem isBytes_take (buf : List Nat) (h : isBytes buf) (i : Nat) : isBytes (buf.take i) :=
  fun b hb => h b (List.mem_of_mem_take hb)

theorem le_sum_zero (buf : List Nat) (off : Nat) : le_sum buf off 0 = 0 := rfl

theorem le_sum_succ (buf : List Nat) (off n : Nat) :
    le_sum buf off (n + 1) = le_sum buf off n + buf.getD (off + n) 0 * 2 ^ (8 * n) := rfl

theorem le_sum_lt (buf : List Nat) (h : isBytes buf) (off n : Nat) :
    le_sum buf off n < 2 ^ (8 * n) := by
  induction n with
  | zero => simp [le_sum]
  | succ n ih =>
    have hb := getD_lt_of_isBytes buf h (off + n)
    have e : 2 ^ (8 * (n + 1)) = 256 * 2 ^ (8 * n) := by
      rw [show 8 * (n + 1) = 8 + 8 * n by ring, pow_add]; norm_num
    have hm : buf.getD (off + n) 0 * 2 ^ (8 * n) ≤ 255 * 2 ^ (8 * n) :=
      Nat.mul_le_mul_right _ (by omega)
    rw [le_sum_succ, e]
    omega

theorem le_sum_short (buf : List Nat) (off m n : Nat) (hlen : buf.length ≤ off + m)
    (hmn : m ≤ n) : le_sum buf off n = le_sum buf off m := by
  induction n with
  | zero =>
    have : m = 0 := by omega
    rw [this]
  | succ n ih =>
    by_cases hm : m = n + 1
    · rw [hm]
    · have hz : buf.getD (off + n) 0 = 0 := by
        rw [List.getD_eq_getElem?_getD, List.getElem?_eq_none (by omega)]
        rfl
      rw [le_sum_succ, hz, ih (by omega)]
      simp

theorem getD_take_succ (bytes : List Nat) (i t : Nat) (hi : i < bytes.length) :
    (bytes.take (i + 1)).getD t 0
      = if t = i then bytes.getD i 0 else (bytes.take i).getD t 0 := by
  simp only [List.getD_eq_getElem?_getD, List.getElem?_take]
  by_cases h1 : t = i
  · subst h1
    simp
  · by_cases h2 : t < i
    · simp [h1, h2, Nat.lt_succ_of_lt h2]
    · have h3 : ¬ t < i + 1 := by omega
      simp [h1, h2, h3]

theorem le_sum_take_succ (bytes : List Nat) (i off n : Nat) (hi : i < bytes.length) :
    le_sum (bytes.take (i + 1)) off n
      = le_sum (bytes.take i) off n
        + (if off ≤ i ∧ i < off + n then bytes.getD i 0 * 2 ^ (8 * (i - off)) else 0) := by
  induction n with
  | zero => rw [if_neg (by omega)]; rfl
  | succ n ih =>
    rw [le_sum_succ, le_sum_succ, ih, getD_take_succ bytes i (off + n) hi]
    by_cases h1 : off + n = i
    · have c1 : ¬ (off ≤ i ∧ i < off + n) := by omega
      have c2 : off ≤ i ∧ i < off + (n + 1) := by omega
      have hz : (bytes.take i).getD (off + n) 0 = 0 := by
        rw [List.getD_eq_getElem?_getD, List.getElem?_eq_none (by simp; omega)]
        rfl
      have e : i - off = n := by omega
      rw [if_pos h1, if_neg c1, if_pos c2, hz, e]
      simp
    · by_cases h2 : off ≤ i ∧ i < off + n
      · have c2 : off ≤ i ∧ i < off + (n + 1) := by omega
        rw [if_neg h1, if_pos h2, if_pos c2]
        ring
      · have c2 : ¬ (off ≤ i ∧ i < off + (n + 1)) := by omega
        rw [if_neg h1, if_neg h2, if_neg c2]
        ring

theorem le_sum_nil (off n : Nat) : le_sum [] off n = 0 := by
  induction n with
  | zero => rfl
  | succ n ih => rw [le_sum_succ, ih]; simp

/-! ## Shifts of a byte -/

theorem shift_first_eq (i : Nat) : shift_first i = 8 * (i % 8) := by
  unfold shift_first
  norm_num
  omega

theorem shift_second_mod (i : Nat) : shift_second i % 64 = 8 * (i % 8) := by
  unfold shift_second
  norm_num
  omega

theorem shl64_byte (b c j : Nat) (hb : b < 256) (hj : j < 8) (hc : c % 64 = 8 * j) :
    shl64 b c = b * 2 ^ (8 * j) := by
  unfold shl64
  rw [hc, Nat.shiftLeft_eq]
  apply Nat.mod_eq_of_lt
  have h1 : b * 2 ^ (8 * j) < 256 * 2 ^ (8 * j) :=
    Nat.mul_lt_mul_of_pos_right hb (by positivity)
  have h2 : 256 * 2 ^ (8 * j) ≤ 2 ^ 64 := by
    rw [show (256 : Nat) = 2 ^ 8 by norm_num, ← pow_add]
    exact Nat.pow_le_pow_right (by decide) (by omega)
  omega

theorem or_shifted (a b s : Nat) (ha : a < 2 ^ s) : a ||| b * 2 ^ s = a + b * 2 ^ s := by
  rw [Nat.mul_comm b, Nat.lor_comm, Nat.add_comm]
  exact (Nat.mul_add_lt_is_or ha b).symm

/-! ## The packing loop -/

theorem length_pack (buf : List Nat) (n : Nat) : (pack buf n).length = n := by
  simp [pack]

theorem getElem?_pack (buf : List Nat) (n j : Nat) :
    (pack buf n)[j]? = if j < n then some (block_at buf j) else none := by
  unfold pack
  rw [List.getElem?_map]
  by_cases h : j < n
  · rw [List.getElem?_range h, if_pos h]
    rfl
  · rw [List.getElem?_eq_none (by simp; omega), if_neg h]
    rfl

theorem pack_nil (n : Nat) : pack [] n = List.replicate n (0, 0) := by
  apply List.ext_getElem?
  intro j
  rw [getElem?_pack, List.getElem?_replicate]
  unfold block_at
  rw [le_sum_nil, le_sum_nil]

theorem or_byte_eq (bytes : List Nat) (hb : isBytes bytes) (i off c : Nat)
    (hoff : off + i % 8 = i) (hc : c % 64 = 8 * (i % 8)) :
    le_sum (bytes.take i) off 8 ||| shl64 (bytes.getD i 0) c
      = le_sum (bytes.take i) off 8 + bytes.getD i 0 * 2 ^ (8 * (i - off)) := by
  have hj : i % 8 < 8 := Nat.mod_lt _ (by decide)
  have e : i - off = i % 8 := by omega
  rw [shl64_byte _ c (i % 8) (getD_lt_of_isBytes bytes hb i) hj hc, e]
  apply or_shifted
  rw [le_sum_short (bytes.take i) off (i % 8) 8 (by rw [List.length_take]; omega) (by omega)]
  exact le_sum_lt _ (isBytes_take bytes hb i) _ _

theorem block_at_take_succ (bytes : List Nat) (hb : isBytes bytes) (i j : Nat)
    (hi : i < bytes.length) :
    block_at (bytes.take (i + 1)) j =
      if j = i / 16 then
        (if i % 16 < 8 then
          ((block_at (bytes.take i) j).1 ||| shl64 (bytes.getD i 0) (shift_first i),
            (block_at (bytes.take i) j).2)
        else
          ((block_at (bytes.take i) j).1,
            (block_at (bytes.take i) j).2 ||| shl64 (bytes.getD i 0) (shift_second i)))
      else block_at (bytes.take i) j := by
  unfold block_at
  rw [le_sum_take_succ bytes i _ 8 hi, le_sum_take_succ bytes i _ 8 hi]
  by_cases hj : j = i / 16
  · rw [if_pos hj]
    by_cases hr : i % 16 < 8
    · rw [if_pos hr, if_pos (by omega), if_neg (by omega)]
      simp only [Nat.add_zero]
      rw [or_byte_eq bytes hb i (16 * j) _ (by omega) (by rw [shift_first_eq]; omega)]
    · rw [if_neg hr, if_neg (by omega), if_pos (by omega)]
      simp only [Nat.add_zero]
      rw [or_byte_eq bytes hb i (16 * j + 8) _ (by omega) (shift_second_mod i)]
  · rw [if_neg hj, if_neg (by omega), if_neg (by omega)]
    rfl

theorem bytes_to_blocks_step_pack (bytes : List Nat) (hb : isBytes bytes) (n i : Nat)
    (hi : i < bytes.length) (hn : i / 16 < n) :
    bytes_to_blocks_step bytes (pack (bytes.take i) n) i = some (pack (bytes.take (i + 1)) n) := by
  unfold bytes_to_blocks_step
  have hg : bytes[i]? = some (bytes.getD i 0) := by
    rw [List.getD_eq_getElem?_getD, List.getElem?_eq_getElem hi]
    rfl
  rw [hg, Option.some_bind, getElem?_pack, if_pos hn, Option.some_bind]
  have hw : ∀ v : Block, write (pack (bytes.take i) n) (i / 16) v
      = some ((pack (bytes.take i) n).set (i / 16) v) := by
    intro v
    unfold write
    rw [if_pos (by rw [length_pack]; exact hn)]
  have key : ∀ v : Block,
      (block_at (bytes.take (i + 1)) (i / 16) = v) →
      (pack (bytes.take i) n).set (i / 16) v = pack (bytes.take (i + 1)) n := by
    intro v hv
    apply List.ext_getElem?
    intro j
    rw [List.getElem?_set, getElem?_pack, getElem?_pack, length_pack]
    by_cases hj : i / 16 = j
    · subst hj
      rw [if_pos rfl, if_pos hn, if_pos hn, hv]
    · rw [if_neg hj]
      by_cases hjn : j < n
      · rw [if_pos hjn, if_pos hjn, block_at_take_succ bytes hb i j hi, if_neg (Ne.symm hj)]
      · rw [if_neg hjn, if_neg hjn]
  have hblk := block_at_take_succ bytes hb i (i / 16) hi
  rw [if_pos rfl] at hblk
  by_cases hr : i % 16 < 8
  · rw [if_pos hr] at hblk
    rw [if_pos hr, hw, key _ hblk]
  · rw [if_neg hr] at hblk
    rw [if_neg hr, hw, key _ hblk]

theorem bytes_to_blocks_loop (bytes : List Nat) (hb : isBytes bytes) (n i : Nat)
    (hi : i ≤ bytes.length) (hn : bytes.length ≤ 16 * n) :
    (List.range i).foldlM (bytes_to_blocks_step bytes) (List.replicate n (0, 0))
      = some (pack (bytes.take i) n) := by
  induction i with
  | zero => rw [List.take_zero, pack_nil]; rfl
  | succ i ih =>
    rw [List.range_succ, List.foldlM_append, ih (by omega)]
    simp only [List.foldlM_cons, List.foldlM_nil, Option.some_bind, Option.bind_eq_bind]
    rw [bytes_to_blocks_step_pack bytes hb n i (by omega) (by omega)]
    rfl

theorem bytes_to_blocks_eq (bytes : List Nat) (hb : isBytes bytes) :
    bytes_to_blocks bytes = some (pack bytes ((bytes.length + 15) / 16)) := by
  unfold bytes_to_blocks
  simp only
  rw [bytes_to_blocks_loop bytes hb _ _ (le_refl _) (by omega), List.take_length]

/-! ## Unpacking -/

theorem byte_extract (w i : Nat) :
    ((w >>> (i * 8)) &&& 0xFF) % 256 = w / 2 ^ (8 * i) % 256 := by
  have h := Nat.and_pow_two_sub_one_eq_mod (w >>> (i * 8)) 8
  norm_num at h
  rw [h, Nat.mod_mod, Nat.shiftRight_eq_div_pow, Nat.mul_comm i 8]

theorem word_bytes_eq (w : Nat) :
    word_bytes w = [w % 256, w / 2 ^ 8 % 256, w / 2 ^ 16 % 256, w / 2 ^ 24 % 256,
      w / 2 ^ 32 % 256, w / 2 ^ 40 % 256, w / 2 ^ 48 % 256, w / 2 ^ 56 % 256] := by
  unfold word_bytes
  simp only [byte_extract]
  simp [List.range, List.range.loop]

theorem length_word_bytes (w : Nat) : (word_bytes w).length = 8 := by
  simp [word_bytes]

theorem isBytes_word_bytes (w : Nat) : isBytes (word_bytes w) := by
  intro b hb
  unfold word_bytes at hb
  rw [List.mem_map] at hb
  obtain ⟨i, _, rfl⟩ := hb
  exact Nat.mod_lt _ (by decide)

theorem le_sum_eight (buf : List Nat) (off : Nat) :
    le_sum buf off 8 = buf.getD off 0 + buf.getD (off + 1) 0 * 2 ^ 8 + buf.getD (off + 2) 0 * 2 ^ 16
      + buf.getD (off + 3) 0 * 2 ^ 24 + buf.getD (off + 4) 0 * 2 ^ 32
      + buf.getD (off + 5) 0 * 2 ^ 40 + buf.getD (off + 6) 0 * 2 ^ 48
      + buf.getD (off + 7) 0 * 2 ^ 56 := by
  simp [le_sum]

theorem word_bytes_sum (b0 b1 b2 b3 b4 b5 b6 b7 : Nat) (h0 : b0 < 256) (h1 : b1 < 256)
    (h2 : b2 < 256) (h3 : b3 < 256) (h4 : b4 < 256) (h5 : b5 < 256) (h6 : b6 < 256)
    (h7 : b7 < 256) :
    word_bytes (b0 + b1 * 2 ^ 8 + b2 * 2 ^ 16 + b3 * 2 ^ 24 + b4 * 2 ^ 32 + b5 * 2 ^ 40
      + b6 * 2 ^ 48 + b7 * 2 ^ 56) = [b0, b1, b2, b3, b4, b5, b6, b7] := by
  rw [word_bytes_eq]
  norm_num
  refine ⟨?_, ?_, ?_, ?_, ?_, ?_, ?_, ?_⟩ <;> omega

theorem word_bytes_le_sum (buf : List Nat) (hb : isBytes buf) (off : Nat) :
    word_bytes (le_sum buf off 8) = (List.range 8).map fun j => buf.getD (off + j) 0 := by
  rw [le_sum_eight, word_bytes_sum _ _ _ _ _ _ _ _ (getD_lt_of_isBytes buf hb _)
    (getD_lt_of_isBytes buf hb _) (getD_lt_of_isBytes buf hb _) (getD_lt_of_isBytes buf hb _)
    (getD_lt_of_isBytes buf hb _) (getD_lt_of_isBytes buf hb _) (getD_lt_of_isBytes buf hb _)
    (getD_lt_of_isBytes buf hb _)]
  rfl

theorem le_sum_word_bytes (w : Nat) (hw : w < 2 ^ 64) : le_sum (word_bytes w) 0 8 = w := by
  rw [le_sum_eight, word_bytes_eq]
  simp only [List.getD_eq_getElem?_getD, Nat.zero_add, List.getElem?_cons_zero,
    List.getElem?_cons_succ, Option.getD_some]
  norm_num at *
  omega

theorem blocks_to_bytes_append (l r : List Block) :
    blocks_to_bytes (l ++ r) = blocks_to_bytes l ++ blocks_to_bytes r := by
  induction l with
  | nil => rfl
  | cons b t ih =>
    show word_bytes b.1 ++ word_bytes b.2 ++ blocks_to_bytes (t ++ r)
      = word_bytes b.1 ++ word_bytes b.2 ++ blocks_to_bytes t ++ blocks_to_bytes r
    rw [ih, List.append_assoc (word_bytes b.1 ++ word_bytes b.2)]

theorem length_blocks_to_bytes (bs : List Block) :
    (blocks_to_bytes bs).length = 16 * bs.length := by
  induction bs with
  | nil => rfl
  | cons b t ih =>
    simp only [blocks_to_bytes, List.length_append, length_word_bytes, ih, List.length_cons]
    omega

theorem isBytes_append (l r : List Nat) (hl : isBytes l) (hr : isBytes r) : isBytes (l ++ r) := by
  intro b hb
  rcases List.mem_append.mp hb with h | h
  · exact hl b h
  · exact hr b h

theorem isBytes_blocks_to_bytes (bs : List Block) : isBytes (blocks_to_bytes bs) := by
  induction bs with
  | nil => intro b hb; cases hb
  | cons b t ih =>
    exact isBytes_append _ _ (isBytes_append _ _ (isBytes_word_bytes _) (isBytes_word_bytes _)) ih

theorem length_padded (buf : List Nat) (n : Nat) : (padded buf n).length = n := by
  simp [padded]

theorem padded_add (buf : List Nat) (a b : Nat) :
    padded buf (a + b) = padded buf a ++ (List.range b).map fun j => buf.getD (a + j) 0 := by
  unfold padded
  rw [List.range_add, List.map_append, List.map_map]
  rfl

theorem blocks_to_bytes_pack (buf : List Nat) (hb : isBytes buf) (n : Nat) :
    blocks_to_bytes (pack buf n) = padded buf (16 * n) := by
  induction n with
  | zero => rfl
  | succ n ih =>
    have e : pack buf (n + 1) = pack buf n ++ [block_at buf n] := by
      unfold pack
      rw [List.range_succ, List.map_append]
      rfl
    have e16 : 16 * (n + 1) = 16 * n + 8 + 8 := by ring
    rw [e, blocks_to_bytes_append, ih, e16, padded_add, padded_add]
    simp only [blocks_to_bytes, block_at, List.append_nil, List.append_assoc]
    rw [word_bytes_le_sum buf hb, word_bytes_le_sum buf hb]

theorem padded_eq (buf : List Nat) (n : Nat) (h : buf.length ≤ n) :
    padded buf n = buf ++ List.replicate (n - buf.length) 0 := by
  apply List.ext_getElem?
  intro j
  unfold padded
  rw [List.getElem?_map, List.getElem?_append, List.getElem?_replicate]
  by_cases hj : j < n
  · rw [List.getElem?_range hj]
    by_cases hl : j < buf.length
    · rw [if_pos hl, Option.map_some', List.getD_eq_getElem?_getD, List.getElem?_eq_getElem hl]
      rfl
    · rw [if_neg hl, if_pos (by omega), Option.map_some', List.getD_eq_getElem?_getD,
        List.getElem?_eq_none (by omega)]
      rfl
  · rw [List.getElem?_eq_none (by simp; omega), if_neg (by omega), if_neg (by omega)]
    rfl

theorem le_sum_congr (l r : List Nat) (off off2 n : Nat)
    (h : ∀ j, j < n → l.getD (off + j) 0 = r.getD (off2 + j) 0) :
    le_sum l off n = le_sum r off2 n := by
  induction n with
  | zero => rfl
  | succ n ih =>
    rw [le_sum_succ, le_sum_succ, ih (fun j hj => h j (by omega)), h n (by omega)]

theorem le_sum_append_left (l r : List Nat) (off n : Nat) (h : off + n ≤ l.length) :
    le_sum (l ++ r) off n = le_sum l off n := by
  apply le_sum_congr
  intro j hj
  rw [List.getD_eq_getElem?_getD, List.getD_eq_getElem?_getD,
    List.getElem?_append_left (by omega)]

theorem le_sum_append_right (l r : List Nat) (off n : Nat) :
    le_sum (l ++ r) (l.length + off) n = le_sum r off n := by
  apply le_sum_congr
  intro j hj
  rw [List.getD_eq_getElem?_getD, List.getD_eq_getElem?_getD,
    List.getElem?_append_right (by omega)]
  congr 2
  omega

theorem block_at_cons_zero (b : Block) (t : List Block) (h1 : b.1 < 2 ^ 64) (h2 : b.2 < 2 ^ 64) :
    block_at (blocks_to_bytes (b :: t)) 0 = b := by
  unfold block_at
  simp only [blocks_to_bytes, List.append_assoc]
  have e1 : le_sum (word_bytes b.1 ++ (word_bytes b.2 ++ blocks_to_bytes t)) (16 * 0) 8 = b.1 := by
    rw [le_sum_append_left _ _ _ _ (by rw [length_word_bytes])]
    exact le_sum_word_bytes b.1 h1
  have e2 : le_sum (word_bytes b.1 ++ (word_bytes b.2 ++ blocks_to_bytes t)) (16 * 0 + 8) 8
      = b.2 := by
    have := le_sum_append_right (word_bytes b.1) (word_bytes b.2 ++ blocks_to_bytes t) 0 8
    rw [length_word_bytes] at this
    rw [this, le_sum_append_left _ _ _ _ (by rw [length_word_bytes])]
    exact le_sum_word_bytes b.2 h2
  rw [e1, e2]

theorem block_at_cons_succ (b : Block) (t : List Block) (j : Nat) :
    block_at (blocks_to_bytes (b :: t)) (j + 1) = block_at (blocks_to_bytes t) j := by
  unfold block_at
  have hl : (word_bytes b.1 ++ word_bytes b.2).length = 16 := by
    rw [List.length_append, length_word_bytes, length_word_bytes]
  have e1 := le_sum_append_right (word_bytes b.1 ++ word_bytes b.2) (blocks_to_bytes t) (16 * j) 8
  have e2 := le_sum_append_right (word_bytes b.1 ++ word_bytes b.2) (blocks_to_bytes t)
    (16 * j + 8) 8
  rw [hl] at e1 e2
  have a1 : 16 * (j + 1) = 16 + 16 * j := by ring
  have a2 : 16 * (j + 1) + 8 = 16 + (16 * j + 8) := by ring
  simp only [blocks_to_bytes]
  rw [a1, e1, ← a1, a2, e2]

theorem pack_blocks_to_bytes (bs : List Block) (h : isBlocks bs) :
    pack (blocks_to_bytes bs) bs.length = bs := by
  apply List.ext_getElem?
  intro j
  rw [getElem?_pack]
  induction bs generalizing j with
  | nil => rfl
  | cons b t ih =>
    have hb := h b (List.mem_cons_self _ _)
    have ht : isBlocks t := fun x hx => h x (List.mem_cons_of_mem _ hx)
    cases j with
    | zero =>
      rw [if_pos (by simp), block_at_cons_zero b t hb.1 hb.2, List.getElem?_cons_zero]
    | succ j =>
      rw [block_at_cons_succ, List.getElem?_cons_succ, ← ih ht j]
      simp only [List.length_cons, Nat.add_lt_add_iff_right]

/-! ## Stripping trailing zero bytes -/

theorem strip_loop_eq (n : Nat) (bytes : List Nat) (h : bytes.length ≤ n) :
    strip_loop n bytes = bytes.rdropWhile (· == 0) := by
  induction n generalizing bytes with
  | zero =>
    have : bytes = [] := List.length_eq_zero.mp (by omega)
    subst this
    rfl
  | succ n ih =>
    rcases List.eq_nil_or_concat bytes with h0 | ⟨init, a, h1⟩
    · subst h0
      rfl
    · rw [List.concat_eq_append] at h1
      subst h1
      have hl : (init ++ [a]).getLast? = some a := by simp
      unfold strip_loop
      rw [hl]
      by_cases ha : a = 0
      · subst ha
        simp only [List.dropLast_concat]
        rw [ih init (by simp at h; omega),
          List.rdropWhile_concat_pos (fun x => x == 0) init 0 (by simp)]
      · rw [List.rdropWhile_concat_neg (fun x => x == 0) init a (by simpa using ha)]
        cases a with
        | zero => exact absurd rfl ha
        | succ a => rfl

theorem strip_zeros_eq (bytes : List Nat) : strip_zeros bytes = bytes.rdropWhile (· == 0) :=
  strip_loop_eq _ _ (le_refl _)

theorem strip_zeros_append_zeros (bytes : List Nat) (m : Nat) :
    strip_zeros (bytes ++ List.replicate m 0) = strip_zeros bytes := by
  rw [strip_zeros_eq, strip_zeros_eq]
  induction m with
  | zero => simp
  | succ m ih =>
    rw [List.replicate_succ', ← List.append_assoc,
      List.rdropWhile_concat_pos (fun x => x == 0) _ 0 (by simp), ih]

theorem strip_zeros_of_last (bytes : List Nat) (h : bytes = [] ∨ bytes.getLast? ≠ some 0) :
    strip_zeros bytes = bytes := by
  rw [strip_zeros_eq]
  rcases List.eq_nil_or_concat bytes with h0 | ⟨init, a, h1⟩
  · subst h0
    rfl
  · rw [List.concat_eq_append] at h1
    subst h1
    have ha : a ≠ 0 := by
      rcases h with h | h
      · simp at h
      · simpa using h
    exact List.rdropWhile_concat_neg (fun x => x == 0) init a (by simpa using ha)

/-! ## The round loops -/

theorem foldlM_keys (f : Nat → Nat → Nat → Block) (rk : List Nat) (l : List Nat)
    (hl : ∀ i ∈ l, i < rk.length) (b : Block) :
    l.foldlM (fun (b : Block) i => rk[i]?.bind fun k => some (f b.1 b.2 k)) b
      = some (l.foldl (fun (b : Block) i => f b.1 b.2 (rk.getD i 0)) b) := by
  induction l generalizing b with
  | nil => rfl
  | cons i t ih =>
    have hi : i < rk.length := hl i (List.mem_cons_self _ _)
    have hg : rk[i]? = some (rk.getD i 0) := by
      rw [List.getD_eq_getElem?_getD, List.getElem?_eq_getElem hi]
      rfl
    rw [List.foldlM_cons, hg]
    simp only [Option.some_bind, Option.bind_eq_bind, List.foldl_cons]
    exact ih (fun j hj => hl j (List.mem_cons_of_mem _ hj)) _

theorem encrypt_block_eq (rk : List Nat) (h : rk.length = 32) (b : Block) :
    encrypt_block rk b = some (enc_rounds rk b) :=
  foldlM_keys speck_round rk (List.range rounds)
    (fun i hi => by rw [h]; exact List.mem_range.mp hi) b

theorem decrypt_block_eq (rk : List Nat) (h : rk.length = 32) (b : Block) :
    decrypt_block rk b = some (dec_rounds rk b) :=
  foldlM_keys speck_inv_round rk (List.range rounds).reverse
    (fun i hi => by rw [h]; exact List.mem_range.mp (List.mem_reverse.mp hi)) b

theorem mapM_some (f : Block → Option Block) (g : Block → Block) (h : ∀ b, f b = some (g b))
    (bs : List Block) : bs.mapM f = some (bs.map g) := by
  induction bs with
  | nil => rfl
  | cons b t ih =>
    rw [List.mapM_cons, h b, ih]
    rfl

theorem fwd_word (rk : List Nat) (hk : isWords rk) (l : List Nat) (b : Block)
    (hb : b.1 < 2 ^ 64 ∧ b.2 < 2 ^ 64) :
    (l.foldl (fun (b : Block) i => speck_round b.1 b.2 (rk.getD i 0)) b).1 < 2 ^ 64 ∧
    (l.foldl (fun (b : Block) i => speck_round b.1 b.2 (rk.getD i 0)) b).2 < 2 ^ 64 := by
  have hkd : ∀ i, rk.getD i 0 < 2 ^ 64 := by
    intro i
    rw [List.getD_eq_getElem?_getD]
    by_cases hi : i < rk.length
    · rw [List.getElem?_eq_getElem hi]
      exact hk _ (List.getElem_mem hi)
    · rw [List.getElem?_eq_none (by omega)]
      exact Nat.pos_of_ne_zero (by norm_num)
  induction l generalizing b with
  | nil => exact hb
  | cons i t ih =>
    rw [List.foldl_cons]
    exact ih _ ⟨speck_round_fst_lt _ _ _ (hkd i), speck_round_snd_lt _ _ _ hb.2 (hkd i)⟩

theorem inv_fwd_fold (rk : List Nat) (hk : isWords rk) (l : List Nat) (b : Block)
    (hb : b.1 < 2 ^ 64 ∧ b.2 < 2 ^ 64) :
    l.reverse.foldl (fun (b : Block) i => speck_inv_round b.1 b.2 (rk.getD i 0))
      (l.foldl (fun (b : Block) i => speck_round b.1 b.2 (rk.getD i 0)) b) = b := by
  have hkd : ∀ i, rk.getD i 0 < 2 ^ 64 := by
    intro i
    rw [List.getD_eq_getElem?_getD]
    by_cases hi : i < rk.length
    · rw [List.getElem?_eq_getElem hi]
      exact hk _ (List.getElem_mem hi)
    · rw [List.getElem?_eq_none (by omega)]
      exact Nat.pos_of_ne_zero (by norm_num)
  induction l generalizing b with
  | nil => rfl
  | cons i t ih =>
    rw [List.foldl_cons, List.reverse_cons, List.foldl_append,
      ih _ ⟨speck_round_fst_lt _ _ _ (hkd i), speck_round_snd_lt _ _ _ hb.2 (hkd i)⟩]
    exact speck_inv_round_speck_round b.1 b.2 _ hb.1 hb.2

theorem dec_rounds_enc_rounds (rk : List Nat) (hk : isWords rk) (b : Block)
    (hb : b.1 < 2 ^ 64 ∧ b.2 < 2 ^ 64) : dec_rounds rk (enc_rounds rk b) = b :=
  inv_fwd_fold rk hk (List.range rounds) b hb

theorem enc_rounds_word (rk : List Nat) (hk : isWords rk) (b : Block)
    (hb : b.1 < 2 ^ 64 ∧ b.2 < 2 ^ 64) :
    (enc_rounds rk b).1 < 2 ^ 64 ∧ (enc_rounds rk b).2 < 2 ^ 64 :=
  fwd_word rk hk (List.range rounds) b hb

/-! ## Encryption and decryption as pure functions -/

theorem pack_succ (buf : List Nat) (n : Nat) : pack buf (n + 1) = pack buf n ++ [block_at buf n] := by
  unfold pack
  rw [List.range_succ, List.map_append]
  rfl

theorem block_at_beyond (buf : List Nat) (n : Nat) (h : buf.length ≤ 16 * n) :
    block_at buf n = (0, 0) := by
  unfold block_at
  rw [le_sum_short buf (16 * n) 0 8 (by omega) (by omega),
    le_sum_short buf (16 * n + 8) 0 8 (by omega) (by omega)]
  rfl

theorem pad_even_pack (buf : List Nat) :
    pad_even (pack buf ((buf.length + 15) / 16)) = pack buf (enc_blocks buf.length) := by
  unfold pad_even enc_blocks
  rw [length_pack]
  by_cases h : (buf.length + 15) / 16 % 2 ≠ 0
  · have h1 : (buf.length + 15) / 16 % 2 = 1 := by omega
    rw [if_pos h, h1, pack_succ, block_at_beyond buf _ (by omega)]
  · have h0 : (buf.length + 15) / 16 % 2 = 0 := by omega
    rw [if_neg h, h0]
    rfl

theorem encrypt_text_eq (P rk : List Nat) (hP : isBytes P) (hl : rk.length = 32) :
    encrypt_text P rk
      = some (blocks_to_bytes ((pack P (enc_blocks P.length)).map (enc_rounds rk))) := by
  unfold encrypt_text string_to_bytes
  simp only
  rw [bytes_to_blocks_eq P hP, Option.some_bind, pad_even_pack,
    mapM_some _ _ (encrypt_block_eq rk hl), Option.some_bind]

theorem decrypt_text_eq (C rk : List Nat) (hC : isBytes C) (hl : rk.length = 32) :
    decrypt_text C rk = some (strip_zeros (blocks_to_bytes
      ((pack C ((C.length + 15) / 16)).map (dec_rounds rk)))) := by
  unfold decrypt_text string_to_bytes
  simp only
  rw [bytes_to_blocks_eq C hC, Option.some_bind, mapM_some _ _ (decrypt_block_eq rk hl),
    Option.some_bind]

theorem isBlocks_pack (buf : List Nat) (hb : isBytes buf) (n : Nat) : isBlocks (pack buf n) := by
  intro b hmem
  unfold pack at hmem
  rw [List.mem_map] at hmem
  obtain ⟨j, _, rfl⟩ := hmem
  exact ⟨le_sum_lt buf hb _ 8, le_sum_lt buf hb _ 8⟩

theorem isBlocks_map_enc (rk : List Nat) (hk : isWords rk) (bs : List Block) (h : isBlocks bs) :
    isBlocks (bs.map (enc_rounds rk)) := by
  intro b hmem
  rw [List.mem_map] at hmem
  obtain ⟨a, ha, rfl⟩ := hmem
  exact enc_rounds_word rk hk a (h a ha)

theorem map_dec_map_enc (rk : List Nat) (hk : isWords rk) (bs : List Block) (h : isBlocks bs) :
    (bs.map (enc_rounds rk)).map (dec_rounds rk) = bs := by
  induction bs with
  | nil => rfl
  | cons a t ih =>
    rw [List.map_cons, List.map_cons, ih (fun x hx => h x (List.mem_cons_of_mem _ hx)),
      dec_rounds_enc_rounds rk hk a (h a (List.mem_cons_self _ _))]

theorem le_enc_blocks (len : Nat) : len ≤ 16 * enc_blocks len := by
  unfold enc_blocks
  omega

theorem decrypt_ciphertext (P rk : List Nat) (hP : isBytes P) (hk : isWords rk)
    (hl : rk.length = 32) :
    decrypt_text (blocks_to_bytes ((pack P (enc_blocks P.length)).map (enc_rounds rk))) rk
      = some (strip_zeros P) := by
  have hE : isBlocks ((pack P (enc_blocks P.length)).map (enc_rounds rk)) :=
    isBlocks_map_enc rk hk _ (isBlocks_pack P hP _)
  have hlen : ((pack P (enc_blocks P.length)).map (enc_rounds rk)).length
      = enc_blocks P.length := by
    rw [List.length_map, length_pack]
  rw [decrypt_text_eq _ rk (isBytes_blocks_to_bytes _) hl, length_blocks_to_bytes, hlen]
  have e : (16 * enc_blocks P.length + 15) / 16 = enc_blocks P.length := by omega
  have hp := pack_blocks_to_bytes _ hE
  rw [hlen] at hp
  rw [e, hp, map_dec_map_enc rk hk _ (isBlocks_pack P hP _), blocks_to_bytes_pack P hP,
    padded_eq P _ (le_enc_blocks _), strip_zeros_append_zeros]

theorem round_trip (P rk : List Nat) (hP : isBytes P) (hk : isWords rk) (hl : rk.length = 32) :
    (encrypt_text P rk).bind (fun c => decrypt_text c rk) = some (strip_zeros P) := by
  rw [encrypt_text_eq P rk hP hl, Option.some_bind]
  exact decrypt_ciphertext P rk hP hk hl

theorem isWords_round_keys (k0 : Nat) (h0 : k0 < 2 ^ 64) :
    isWords ((List.range 32).map (round_key k0)) := by
  intro w hw
  rw [List.mem_map] at hw
  obtain ⟨i, hi, rfl⟩ := hw
  exact round_key_lt k0 h0 i (lt_trans (List.mem_range.mp hi) (by norm_num))

theorem round_trip_key (k0 k1 : Nat) (P : List Nat) (h0 : k0 < 2 ^ 64) (hP : isBytes P) :
    ((key_schedule [k0, k1]).bind fun rk =>
      (encrypt_text P rk).bind fun c => decrypt_text c rk) = some (strip_zeros P) := by
  rw [key_schedule_eq, Option.some_bind]
  exact round_trip P _ hP (isWords_round_keys k0 h0) (by simp)

theorem strip_zeros_decomp (P : List Nat) :
    ∃ m, P = strip_zeros P ++ List.replicate m 0 ∧
      (strip_zeros P = [] ∨ (strip_zeros P).getLast? ≠ some 0) := by
  induction P using List.reverseRecOn with
  | nil => exact ⟨0, rfl, Or.inl rfl⟩
  | append_singleton init a ih =>
    by_cases ha : a = 0
    · subst ha
      obtain ⟨m, hm, hlast⟩ := ih
      have e : strip_zeros (init ++ [0]) = strip_zeros init :=
        strip_zeros_append_zeros init 1
      rw [e]
      refine ⟨m + 1, ?_, hlast⟩
      rw [List.replicate_succ', ← List.append_assoc, ← hm]
    · have e : strip_zeros (init ++ [a]) = init ++ [a] :=
        strip_zeros_of_last _ (Or.inr (by simpa using ha))
      rw [e]
      exact ⟨0, by simp, Or.inr (by simpa using ha)⟩

theorem le_sum_eq_sum (buf : List Nat) (off n : Nat) :
    le_sum buf off n = ∑ j in Finset.range n, buf.getD (off + j) 0 * 2 ^ (8 * j) := by
  induction n with
  | zero => rfl
  | succ n ih => rw [le_sum_succ, Finset.sum_range_succ, ih]

theorem encrypt_text_nil (rk : List Nat) : encrypt_text [] rk = some [] := rfl

theorem decrypt_text_nil (rk : List Nat) : decrypt_text [] rk = some [] := rfl

theorem length_encrypt (P rk : List Nat) :
    (blocks_to_bytes ((pack P (enc_blocks P.length)).map (enc_rounds rk))).length
      = 16 * enc_blocks P.length := by
  rw [length_blocks_to_bytes, List.length_map, length_pack]

theorem speck_round_speck_inv_round (x y k : Nat) (hx : x < 2 ^ 64) (hy : y < 2 ^ 64)
    (hk : k < 2 ^ 64) :
    speck_round (speck_inv_round x y k).1 (speck_inv_round x y k).2 k = (x, y) := by
  unfold speck_round speck_inv_round
  simp only
  have hyx : y ^^^ x < 2 ^ 64 := Nat.xor_lt_two_pow hy hx
  have hxk : x ^^^ k < 2 ^ 64 := Nat.xor_lt_two_pow hx hk
  rw [rotate_right_rotate_left _ beta (Nat.mod_lt _ (by decide)) (by decide) (by decide),
    sub_add_word _ _ hxk, Nat.xor_cancel_right,
    rotate_left_rotate_right _ alpha hyx (by decide) (by decide), Nat.xor_cancel_right]

/-! ## Decryption before stripping -/

theorem decrypt_unstripped_eq (C rk : List Nat) (hC : isBytes C) (hl : rk.length = 32) :
    decrypt_unstripped C rk
      = some (blocks_to_bytes ((pack C ((C.length + 15) / 16)).map (dec_rounds rk))) := by
  unfold decrypt_unstripped string_to_bytes
  simp only
  rw [bytes_to_blocks_eq C hC, Option.some_bind, mapM_some _ _ (decrypt_block_eq rk hl),
    Option.some_bind]

theorem length_unstripped (C rk : List Nat) :
    (blocks_to_bytes ((pack C ((C.length + 15) / 16)).map (dec_rounds rk))).length
      = 16 * ((C.length + 15) / 16) := by
  rw [length_blocks_to_bytes, List.length_map, length_pack]

theorem length_strip_zeros (U : List Nat) :
    (strip_zeros U).length + trailing_zeros U = U.length := by
  rw [strip_zeros_eq]
  unfold trailing_zeros List.rdropWhile
  rw [List.length_reverse, Nat.add_comm, ← List.length_append, List.takeWhile_append_dropWhile,
    List.length_reverse]

theorem read_at_eq (v : List Nat) (i : Nat) (h : i < v.length) :
    read_at v i = Except.ok (v.getD i 0) := by
  unfold read_at
  rw [List.getD_eq_getElem?_getD, List.getElem?_eq_getElem h]
  rfl

theorem write_at_eq (v : List Nat) (i a : Nat) (h : i < v.length) :
    write_at v i a = Except.ok (v.set i a) := by
  unfold write_at
  rw [if_pos h]

theorem getD_set_self (v : List Nat) (i a : Nat) (h : i < v.length) :
    (v.set i a).getD i 0 = a := by
  rw [List.getD_eq_getElem?_getD, List.getElem?_set, if_pos rfl, if_pos h]
  rfl

theorem transformKey_step_eq (s : List Nat) (hb : isBytes s) (slot off j : Nat) (key : List Nat)
    (hslot : slot < key.length) (hlen : off + 8 ≤ s.length) (hj : j < 8) :
    transformKey_step s slot off (key.set slot (le_sum s off j)) j
      = Except.ok (key.set slot (le_sum s off (j + 1))) := by
  have hc : s.getD (j + off) 0 < 256 := getD_lt_of_isBytes s hb _
  have hcount : (j * 8) % 2 ^ 64 % 64 = 8 * j := by
    norm_num
    omega
  unfold transformKey_step
  rw [read_at_eq s (j + off) (by omega),
    read_at_eq (key.set slot (le_sum s off j)) slot (by rw [List.length_set]; exact hslot)]
  show write_at (key.set slot (le_sum s off j)) slot
    ((key.set slot (le_sum s off j)).getD slot 0
      ||| shl64 (s.getD (j + off) 0 % 256) ((j * 8) % 2 ^ 64)) = _
  rw [getD_set_self key slot _ hslot, Nat.mod_eq_of_lt hc,
    shl64_byte _ _ j hc hj hcount, or_shifted _ _ _ (le_sum_lt s hb off j),
    write_at_eq _ _ _ (by rw [List.length_set]; exact hslot), List.set_set, le_sum_succ,
    Nat.add_comm j off]

theorem transformKey_loop (s : List Nat) (hb : isBytes s) (slot off : Nat) (key : List Nat)
    (hslot : slot < key.length) (hlen : off + 8 ≤ s.length) (h0 : key.set slot 0 = key)
    (j : Nat) (hj : j ≤ 8) :
    (List.range j).foldlM (transformKey_step s slot off) key
      = Except.ok (key.set slot (le_sum s off j)) := by
  induction j with
  | zero =>
    rw [le_sum_zero, h0]
    rfl
  | succ j ih =>
    rw [List.range_succ, List.foldlM_append, ih (by omega)]
    show (transformKey_step s slot off (key.set slot (le_sum s off j)) j).bind
      (fun k => Except.ok k) = _
    rw [transformKey_step_eq s hb slot off j key hslot hlen (by omega)]
    rfl

theorem transformKey_eq (s : List Nat) (hb : isBytes s) (h16 : s.length = 16) :
    transformKey s = Except.ok [le_sum s 0 8, le_sum s 8 8] := by
  have h1 := transformKey_loop s hb 0 0 [0, 0] (by decide) (by omega) rfl 8 (le_refl _)
  have h2 := transformKey_loop s hb 1 8 [le_sum s 0 8, 0] (by simp) (by omega) rfl 8
    (le_refl _)
  unfold transformKey
  rw [if_neg (by omega)]
  show ((List.range 8).foldlM (transformKey_step s 0 0) [0, 0]).bind (fun key =>
    ((List.range 8).foldlM (transformKey_step s 1 8) key).bind fun key => Except.ok key) = _
  rw [h1]
  show ((List.range 8).foldlM (transformKey_step s 1 8) [le_sum s 0 8, 0]).bind
    (fun key => Except.ok key) = _
  rw [h2]
  rfl

theorem transformKey_reject (s : List Nat) (h : s.length ≠ 16) :
    transformKey s = Except.error (Stop.exit 1) := by
  unfold transformKey
  rw [if_pos h]

theorem speck_inv_round_fst_lt (x y k : Nat) : (speck_inv_round x y k).1 < 2 ^ 64 := by
  unfold speck_inv_round
  exact rotate_left_lt _ _ (Nat.mod_lt _ (by decide))

theorem speck_inv_round_snd_lt (x y k : Nat) (hx : x < 2 ^ 64) (hy : y < 2 ^ 64) :
    (speck_inv_round x y k).2 < 2 ^ 64 := by
  unfold speck_inv_round
  exact rotate_right_lt _ _ (Nat.xor_lt_two_pow hy hx)

/-! ## The shift with an open result: relation to `shl64` -/

/-- On the counts the language defines, `shl64_with` is `shl64` for every `oob`. -/
theorem shl64_with_of_lt (oob : Nat → Nat → Nat) (x c : Nat) (h : c < 64) :
    shl64_with oob x c = shl64 x c := by
  unfold shl64_with shl64
  rw [if_pos h, Nat.mod_eq_of_lt h]

theorem shl64_with_masked (x c : Nat) : shl64_with shift_masked x c = shl64 x c := by
  by_cases h : c < 64
  · exact shl64_with_of_lt _ x c h
  · unfold shl64_with shift_masked shl64
    rw [if_neg h]

theorem bytes_to_blocks_step_with_masked (bytes : List Nat) (blocks : List Block) (i : Nat) :
    bytes_to_blocks_step_with shift_masked bytes blocks i = bytes_to_blocks_step bytes blocks i := by
  unfold bytes_to_blocks_step_with bytes_to_blocks_step
  simp only [shl64_with_masked]

theorem bytes_to_blocks_with_masked (bytes : List Nat) :
    bytes_to_blocks_with shift_masked bytes = bytes_to_blocks bytes := by
  unfold bytes_to_blocks_with bytes_to_blocks
  have h : bytes_to_blocks_step_with shift_masked bytes = bytes_to_blocks_step bytes :=
    funext fun blocks => funext fun i => bytes_to_blocks_step_with_masked bytes blocks i
  rw [h]

theorem encrypt_text_with_masked (P rk : List Nat) :
    encrypt_text_with shift_masked P rk = encrypt_text P rk := by
  unfold encrypt_text_with encrypt_text
  simp only
  rw [bytes_to_blocks_with_masked]

theorem decrypt_text_with_masked (C rk : List Nat) :
    decrypt_text_with shift_masked C rk = decrypt_text C rk := by
  unfold decrypt_text_with decrypt_text
  simp only
  rw [bytes_to_blocks_with_masked]

/-- Byte index `i` with `i % 16 ≥ 8` is packed by a shift whose count is out of
range, so its contribution is whatever `oob` yields. -/
theorem bytes_to_blocks_step_with_second (oob : Nat → Nat → Nat) (bytes : List Nat)
    (blocks : List Block) (i : Nat) (h : ¬ i % 16 < 8) :
    bytes_to_blocks_step_with oob bytes blocks i =
      bytes[i]?.bind fun byte => blocks[i / 16]?.bind fun blk =>
        write blocks (i / 16) (blk.1, blk.2 ||| oob byte (shift_second i)) := by
  have hc : ¬ shift_second i < 64 := by
    unfold shift_second
    norm_num
    omega
  unfold bytes_to_blocks_step_with shl64_with
  simp only [if_neg h, if_neg hc]

/-! ## Results that hold with the count-masking shift only

The statements of this section go through the second-word shift of
`bytes_to_blocks` and depend on its result for a count of at least 64. -/

/-- With the out-of-range shift taken as `shl64` takes it (count modulo 64):
for every 2-word key `K` and every byte buffer `P` that is empty or whose
last byte is non-zero, `decrypt_text(encrypt_text(P, key_schedule(K)),
key_schedule(K))` is defined and equals `P`. -/
theorem masked_round_trip_no_trailing_zero (k0 k1 : Nat) (P : List Nat) (h0 : isWord k0)
    (_h1 : isWord k1) (hP : isBytes P) (hlast : P = [] ∨ P.getLast? ≠ some 0) :
    ((key_schedule [k0, k1]).bind fun rk =>
      (encrypt_text P rk).bind fun c => decrypt_text c rk) = some P := by
  rw [round_trip_key k0 k1 P h0 hP, strip_zeros_of_last P hlast]

/-- With the out-of-range shift taken as `shl64` takes it (count modulo 64):
for every 2-word key `K` and every byte buffer `P` that ends in a zero
byte, `P` is `R` followed by `m ≥ 1` zero bytes, where `R` is empty or ends in a
non-zero byte, and `decrypt_text(encrypt_text(P, key_schedule(K)),
key_schedule(K))` is defined and equals `R`. -/
theorem masked_round_trip_trailing_zero (k0 k1 : Nat) (P : List Nat) (h0 : isWord k0)
    (_h1 : isWord k1) (hP : isBytes P) (hz : P.getLast? = some 0) :
    ∃ R m, 0 < m ∧ P = R ++ List.replicate m 0 ∧ (R = [] ∨ R.getLast? ≠ some 0) ∧
      ((key_schedule [k0, k1]).bind fun rk =>
        (encrypt_text P rk).bind fun c => decrypt_text c rk) = some R := by
  obtain ⟨m, hm, hl⟩ := strip_zeros_decomp P
  refine ⟨strip_zeros P, m, ?_, hm, hl, round_trip_key k0 k1 P h0 hP⟩
  rcases Nat.eq_zero_or_pos m with h | h
  · exfalso
    rw [h, List.replicate_zero, List.append_nil] at hm
    rw [← hm] at hl
    rcases hl with hl | hl
    · rw [hl] at hz
      simp at hz
    · exact hl hz
  · exact h

/-- With the out-of-range shift taken as `shl64` takes it (count modulo 64):
for every byte buffer `buf` whose length is an exact multiple of 16,
`blocks_to_bytes(bytes_to_blocks(buf))` is defined and equals `buf`. -/
theorem masked_packing_invertible (buf : List Nat) (hb : isBytes buf) (h16 : buf.length % 16 = 0) :
    (bytes_to_blocks buf).map blocks_to_bytes = some buf := by
  rw [bytes_to_blocks_eq buf hb, Option.map_some', blocks_to_bytes_pack buf hb,
    padded_eq buf _ (by omega)]
  have e : 16 * ((buf.length + 15) / 16) - buf.length = 0 := by omega
  rw [e, List.replicate_zero, List.append_nil]

/-- With the out-of-range shift taken as `shl64` takes it (count modulo 64):
for every plaintext buffer `P` and every schedule of 32 words,
`encrypt_text(P, schedule)` is defined, its length is a multiple of 32 and at
least `16 * ceil(len(P) / 16)`; for the plaintext `"Hi"` the output has exactly 32
bytes and `decrypt_text` of it returns exactly `"Hi"`. -/
theorem masked_ciphertext_length (P rk : List Nat) (hP : isBytes P) (hk : isWords rk)
    (hl : rk.length = 32) :
    (∃ c, encrypt_text P rk = some c ∧ c.length % 32 = 0 ∧
      16 * ((P.length + 15) / 16) ≤ c.length) ∧
    (∃ c, encrypt_text [72, 105] rk = some c ∧ c.length = 32 ∧
      decrypt_text c rk = some [72, 105]) := by
  constructor
  · refine ⟨_, encrypt_text_eq P rk hP hl, ?_, ?_⟩
    · rw [length_encrypt]
      unfold enc_blocks
      omega
    · rw [length_encrypt]
      unfold enc_blocks
      omega
  · have hHi : isBytes [72, 105] := by decide
    refine ⟨_, encrypt_text_eq [72, 105] rk hHi hl, ?_, ?_⟩
    · rw [length_encrypt]
      rfl
    · rw [decrypt_ciphertext [72, 105] rk hHi hk hl]
      rfl

/-- With the out-of-range shift taken as `shl64` takes it (count modulo 64):
for every byte buffer `buf`, `bytes_to_blocks(buf)` is defined, has exactly
`ceil(len(buf) / 16)` blocks and, reading every position past the end of `buf` as
a zero byte, block `b` has first word the sum over `j` in `0..7` of
`buf[16b + j] * 2 ^ (8j)` and second word the sum over `j` in `0..7` of
`buf[16b + 8 + j] * 2 ^ (8j)`. -/
theorem masked_bytes_to_blocks (buf : List Nat) (hb : isBytes buf) :
    ∃ blocks, bytes_to_blocks buf = some blocks ∧
      blocks.length = (buf.length + 15) / 16 ∧
      16 * (blocks.length - 1) < buf.length + (if buf.length = 0 then 1 else 0) ∧
      buf.length ≤ 16 * blocks.length ∧
      ∀ b, b < blocks.length →
        blocks[b]? = some
          (∑ j in Finset.range 8, buf.getD (16 * b + j) 0 * 2 ^ (8 * j),
           ∑ j in Finset.range 8, buf.getD (16 * b + 8 + j) 0 * 2 ^ (8 * j)) := by
  refine ⟨_, bytes_to_blocks_eq buf hb, length_pack _ _, ?_, ?_, ?_⟩
  · rw [length_pack]
    split <;> omega
  · rw [length_pack]
    omega
  · intro b hlt
    rw [length_pack] at hlt
    rw [getElem?_pack, if_pos hlt, ← le_sum_eq_sum, ← le_sum_eq_sum]
    rfl

/-- With the out-of-range shift taken as `shl64` takes it (count modulo 64):
for every sequence of blocks `bs` of 64-bit words, `blocks_to_bytes(bs)`
has exactly `16 * len(bs)` bytes and `bytes_to_blocks(blocks_to_bytes(bs))` is
defined and equals `bs`. -/
theorem masked_unpack_pack (bs : List Block) (h : isBlocks bs) :
    (blocks_to_bytes bs).length = 16 * bs.length ∧
    bytes_to_blocks (blocks_to_bytes bs) = some bs := by
  refine ⟨length_blocks_to_bytes bs, ?_⟩
  rw [bytes_to_blocks_eq _ (isBytes_blocks_to_bytes bs), length_blocks_to_bytes,
    show (16 * bs.length + 15) / 16 = bs.length by omega, pack_blocks_to_bytes bs h]

/-! ## Claims -/

/-- C1: for all 64-bit words `x`, `y` and `k`, `speck_inv_round` with subkey `k`
applied to the result of `speck_round` with subkey `k` on `(x, y)` gives back
exactly `(x, y)`. -/
theorem C1_round_invertible (x y k : Nat) (hx : isWord x) (hy : isWord y) (hk : isWord k) :
    speck_inv_round (speck_round x y k).1 (speck_round x y k).2 k = (x, y) ∧
      isWord (speck_round x y k).1 ∧ isWord (speck_round x y k).2 :=
  ⟨speck_inv_round_speck_round x y k hx hy, speck_round_fst_lt x y k hk,
    speck_round_snd_lt x y k hy hk⟩

/-- Witness of C1 at `x = 1`, `y = 2`, `k = 3`. -/
theorem C1_round_invertible_witness :
    isWord 1 ∧ isWord 2 ∧ isWord 3 ∧
      speck_inv_round (speck_round 1 2 3).1 (speck_round 1 2 3).2 3 = (1, 2) :=
  ⟨by decide, by decide, by decide,
    (C1_round_invertible 1 2 3 (by decide) (by decide) (by decide)).1⟩

set_option maxRecDepth 1000000 in
/-- C2, evaluated on the code at the key `(1, 2)` and the plaintext `"Hi"`:
`decrypt_text` packs the 32-byte ciphertext with `bytes_to_blocks`, whose
second-word branch (byte index 8 and on) shifts by a count of at least 64, for
which the language defines no result. With that shift yielding zero the round
trip returns 32 bytes that are not `"Hi"`. -/
theorem C2_round_trip_undefined_shift :
    64 ≤ shift_second 8 ∧
    ((key_schedule [1, 2]).bind fun rk =>
      (encrypt_text_with shift_zero [72, 105] rk).bind fun c =>
        decrypt_text_with shift_zero c rk)
      = some [42, 24, 228, 232, 159, 2, 151, 21, 38, 179, 53, 56, 19, 15, 189, 28, 93, 78, 230,
          163, 87, 44, 252, 200, 206, 26, 253, 85, 180, 8, 37, 4] ∧
    ((key_schedule [1, 2]).bind fun rk =>
      (encrypt_text_with shift_zero [72, 105] rk).bind fun c =>
        decrypt_text_with shift_zero c rk) ≠ some [72, 105] := by
  have h : ((key_schedule [1, 2]).bind fun rk =>
      (encrypt_text_with shift_zero [72, 105] rk).bind fun c =>
        decrypt_text_with shift_zero c rk)
      = some [42, 24, 228, 232, 159, 2, 151, 21, 38, 179, 53, 56, 19, 15, 189, 28, 93, 78, 230,
          163, 87, 44, 252, 200, 206, 26, 253, 85, 180, 8, 37, 4] := by decide
  refine ⟨by decide, h, ?_⟩
  rw [h]
  decide

set_option maxRecDepth 1000000 in
/-- C3, evaluated on the code at the key `(1, 2)` and the plaintext
`72, 0, 105, 0, 0`: `decrypt_text` packs the 32-byte ciphertext with
`bytes_to_blocks`, whose second-word branch shifts by a count of at least 64,
for which the language defines no result. With that shift yielding zero the
round trip returns 32 bytes that are not `72, 0, 105`. -/
theorem C3_round_trip_trailing_zero_undefined_shift :
    64 ≤ shift_second 8 ∧
    ((key_schedule [1, 2]).bind fun rk =>
      (encrypt_text_with shift_zero [72, 0, 105, 0, 0] rk).bind fun c =>
        decrypt_text_with shift_zero c rk)
      = some [148, 118, 113, 67, 230, 219, 141, 74, 242, 124, 112, 52, 9, 76, 56, 54, 93, 78,
          230, 163, 87, 44, 252, 200, 206, 26, 253, 85, 180, 8, 37, 4] ∧
    ((key_schedule [1, 2]).bind fun rk =>
      (encrypt_text_with shift_zero [72, 0, 105, 0, 0] rk).bind fun c =>
        decrypt_text_with shift_zero c rk) ≠ some [72, 0, 105] := by
  have h : ((key_schedule [1, 2]).bind fun rk =>
      (encrypt_text_with shift_zero [72, 0, 105, 0, 0] rk).bind fun c =>
        decrypt_text_with shift_zero c rk)
      = some [148, 118, 113, 67, 230, 219, 141, 74, 242, 124, 112, 52, 9, 76, 56, 54, 93, 78,
          230, 163, 87, 44, 252, 200, 206, 26, 253, 85, 180, 8, 37, 4] := by decide
  refine ⟨by decide, h, ?_⟩
  rw [h]
  decide

/-- C4, as the claim states it, fails for the key `(0, 0)`: the ciphertext of the
empty buffer does not have 32 bytes. -/
theorem C4_empty_input_counterexample :
    ¬ ∃ c, ((key_schedule [0, 0]).bind fun rk => encrypt_text [] rk) = some c ∧
      c.length = 32 := by
  rintro ⟨c, hc, hlen⟩
  rw [key_schedule_eq, Option.some_bind, encrypt_text_nil] at hc
  have e : c = [] := (Option.some.inj hc).symm
  rw [e] at hlen
  exact absurd hlen (by decide)

/-- C4, amended: for every 2-word key `K`, `encrypt_text` of the empty buffer with
`key_schedule(K)` returns the empty buffer (no block is made, and zero is an even
block count), and `decrypt_text` of that ciphertext returns the empty buffer. -/
theorem C4_empty_input (k0 k1 : Nat) :
    ((key_schedule [k0, k1]).bind fun rk => encrypt_text [] rk) = some [] ∧
    ((key_schedule [k0, k1]).bind fun rk =>
      (encrypt_text [] rk).bind fun c => decrypt_text c rk) = some [] := by
  rw [key_schedule_eq, Option.some_bind, Option.some_bind, encrypt_text_nil, Option.some_bind,
    decrypt_text_nil]
  exact ⟨rfl, rfl⟩

/-- C5, evaluated on the code at the 16-byte buffer `1, 2, .., 16`: bytes 8 to 15
are packed by the second-word branch of `bytes_to_blocks`, which shifts by a
count of at least 64, for which the language defines no result. With that shift
yielding zero, `blocks_to_bytes(bytes_to_blocks(buf))` is `1, .., 8` followed by
eight zero bytes, not `buf`. -/
theorem C5_packing_undefined_shift :
    64 ≤ shift_second 8 ∧
    (bytes_to_blocks_with shift_zero
      [1, 2, 3, 4, 5, 6, 7, 8, 9, 10, 11, 12, 13, 14, 15, 16]).map blocks_to_bytes
      = some [1, 2, 3, 4, 5, 6, 7, 8, 0, 0, 0, 0, 0, 0, 0, 0] ∧
    (bytes_to_blocks_with shift_zero
      [1, 2, 3, 4, 5, 6, 7, 8, 9, 10, 11, 12, 13, 14, 15, 16]).map blocks_to_bytes
      ≠ some [1, 2, 3, 4, 5, 6, 7, 8, 9, 10, 11, 12, 13, 14, 15, 16] := by
  refine ⟨by decide, by decide, by decide⟩

set_option maxRecDepth 1000000 in
/-- C6, evaluated on the code at the plaintext `"Hi"` and the schedule
`0, 1, .., 31`: the ciphertext has 32 bytes, and `decrypt_text` packs it with
`bytes_to_blocks`, whose second-word branch shifts by a count of at least 64,
for which the language defines no result. With that shift yielding zero the
decryption returns 32 bytes that are not `"Hi"`. -/
theorem C6_hi_decrypt_undefined_shift :
    64 ≤ shift_second 8 ∧
    encrypt_text_with shift_zero [72, 105] (List.range 32)
      = some [43, 194, 136, 255, 176, 94, 155, 177, 129, 119, 147, 112, 74, 153, 107, 81, 35,
          57, 31, 226, 55, 32, 182, 163, 204, 21, 209, 50, 236, 21, 14, 98] ∧
    decrypt_text_with shift_zero
        [43, 194, 136, 255, 176, 94, 155, 177, 129, 119, 147, 112, 74, 153, 107, 81, 35,
          57, 31, 226, 55, 32, 182, 163, 204, 21, 209, 50, 236, 21, 14, 98] (List.range 32)
      = some [7, 231, 100, 108, 58, 144, 116, 234, 144, 128, 123, 87, 174, 153, 126, 237, 5,
          123, 245, 18, 111, 76, 168, 0, 160, 68, 113, 86, 101, 206, 60, 26] ∧
    decrypt_text_with shift_zero
        [43, 194, 136, 255, 176, 94, 155, 177, 129, 119, 147, 112, 74, 153, 107, 81, 35,
          57, 31, 226, 55, 32, 182, 163, 204, 21, 209, 50, 236, 21, 14, 98] (List.range 32)
      ≠ some [72, 105] := by
  have h : decrypt_text_with shift_zero
        [43, 194, 136, 255, 176, 94, 155, 177, 129, 119, 147, 112, 74, 153, 107, 81, 35,
          57, 31, 226, 55, 32, 182, 163, 204, 21, 209, 50, 236, 21, 14, 98] (List.range 32)
      = some [7, 231, 100, 108, 58, 144, 116, 234, 144, 128, 123, 87, 174, 153, 126, 237, 5,
          123, 245, 18, 111, 76, 168, 0, 160, 68, 113, 86, 101, 206, 60, 26] := by decide
  refine ⟨by decide, by decide, h, ?_⟩
  rw [h]
  decide

/-- C8: for every key `(k0, k1)`, `key_schedule` returns (every vector access
being in range) exactly 32 words `rk` with `rk[0] = k0` and, for every `i` from 0
to 30, `rk[i + 1] = rotate_right(rk[i], 8) XOR (i + 1)`. -/
theorem C8_key_schedule (k0 k1 : Nat) :
    ∃ rk, key_schedule [k0, k1] = some rk ∧ rk.length = 32 ∧ rk[0]? = some k0 ∧
      ∀ i : Fin 31, rk.getD (i.val + 1) 0 = rotate_right (rk.getD i.val 0) 8 ^^^ (i.val + 1) := by
  refine ⟨_, key_schedule_eq k0 k1, by simp, rfl, ?_⟩
  intro i
  have h1 : i.val + 1 < 32 := by omega
  have h2 : i.val < 32 := by omega
  have hm : (i.val + 1) % 2 ^ 32 = i.val + 1 := Nat.mod_eq_of_lt (by omega)
  rw [List.getD_eq_getElem?_getD, List.getD_eq_getElem?_getD, List.getElem?_map,
    List.getElem?_map, List.getElem?_range h1, List.getElem?_range h2]
  show round_key k0 (i.val + 1) = _
  rw [round_key, hm]
  rfl

/-- C9, evaluated on the code at the 9-byte buffer `1, 2, .., 9`: byte 8 is packed
by the second-word branch, whose shift count `shift_second 8` is at least 64, a
count for which the language defines no result. With that shift yielding zero
the second word of the block is 0; with the count taken modulo 64 it is 9, the
value of the claim's sum. -/
theorem C9_second_word_undefined_shift :
    64 ≤ shift_second 8 ∧
    bytes_to_blocks_with shift_zero [1, 2, 3, 4, 5, 6, 7, 8, 9]
      = some [(578437695752307201, 0)] ∧
    bytes_to_blocks_with shift_masked [1, 2, 3, 4, 5, 6, 7, 8, 9]
      = some [(578437695752307201, 9)] ∧
    (∑ j in Finset.range 8, [1, 2, 3, 4, 5, 6, 7, 8, 9].getD (16 * 0 + 8 + j) 0 * 2 ^ (8 * j))
      = 9 := by
  refine ⟨by decide, by decide, by decide, by decide⟩

/-- C11: for every ciphertext buffer `C` whose length is a multiple of 16 and
every schedule of 32 words, `decrypt_text(C, schedule)` is defined, its length
is at most `len(C)`, and equals `len(C)` minus the length of the trailing run of
zero bytes of the un-stripped decrypted bytes (which are `len(C)` bytes). -/
theorem C11_decrypt_length (C rk : List Nat) (hC : isBytes C) (hl : rk.length = 32)
    (h16 : C.length % 16 = 0) :
    ∃ U R, decrypt_unstripped C rk = some U ∧ decrypt_text C rk = some R ∧
      U.length = C.length ∧ R.length ≤ C.length ∧
      R.length = C.length - trailing_zeros U := by
  have hU : (blocks_to_bytes ((pack C ((C.length + 15) / 16)).map (dec_rounds rk))).length
      = C.length := by
    rw [length_unstripped]
    omega
  have hs := length_strip_zeros
    (blocks_to_bytes ((pack C ((C.length + 15) / 16)).map (dec_rounds rk)))
  rw [hU] at hs
  refine ⟨_, _, decrypt_unstripped_eq C rk hC hl, decrypt_text_eq C rk hC hl, hU, ?_, ?_⟩
  · omega
  · omega

/-- Witness of C11 at the 16-byte ciphertext `1, 2, .., 16` and the schedule
`0, 1, .., 31`. -/
theorem C11_decrypt_length_witness :
    ∃ U R, decrypt_unstripped [1, 2, 3, 4, 5, 6, 7, 8, 9, 10, 11, 12, 13, 14, 15, 16]
        (List.range 32) = some U ∧
      decrypt_text [1, 2, 3, 4, 5, 6, 7, 8, 9, 10, 11, 12, 13, 14, 15, 16] (List.range 32)
        = some R ∧
      U.length = [1, 2, 3, 4, 5, 6, 7, 8, 9, 10, 11, 12, 13, 14, 15, 16].length ∧
      R.length ≤ [1, 2, 3, 4, 5, 6, 7, 8, 9, 10, 11, 12, 13, 14, 15, 16].length ∧
      R.length = [1, 2, 3, 4, 5, 6, 7, 8, 9, 10, 11, 12, 13, 14, 15, 16].length
        - trailing_zeros U :=
  C11_decrypt_length [1, 2, 3, 4, 5, 6, 7, 8, 9, 10, 11, 12, 13, 14, 15, 16] (List.range 32)
    (by decide) (by decide) (by decide)

/-- C12: `transformKey` ends with `exit(1)`, returning no key, if and only if the
length of the key string is not 16; for every 16-byte key string it returns
exactly two words, `key[0]` the little-endian value of bytes 0 to 7 and `key[1]`
the little-endian value of bytes 8 to 15, each byte a value `0..255`. -/
theorem C12_transformKey (key_str : List Nat) (hb : isBytes key_str) :
    (transformKey key_str = Except.error (Stop.exit 1) ↔ key_str.length ≠ 16) ∧
    (key_str.length ≠ 16 → ∀ key, transformKey key_str ≠ Except.ok key) ∧
    (key_str.length = 16 →
      transformKey key_str = Except.ok
        [∑ j in Finset.range 8, key_str.getD j 0 * 2 ^ (8 * j),
         ∑ j in Finset.range 8, key_str.getD (8 + j) 0 * 2 ^ (8 * j)]) := by
  refine ⟨⟨?_, transformKey_reject key_str⟩, ?_, ?_⟩
  · intro h h16
    rw [transformKey_eq key_str hb h16] at h
    cases h
  · intro h key hk
    rw [transformKey_reject key_str h] at hk
    cases hk
  · intro h16
    rw [transformKey_eq key_str hb h16, le_sum_eq_sum, le_sum_eq_sum]
    simp only [Nat.zero_add]

/-- Witness of C12 at the key string `"YELLOW SUBMARINE"`. -/
theorem C12_transformKey_witness :
    transformKey [89, 69, 76, 76, 79, 87, 32, 83, 85, 66, 77, 65, 82, 73, 78, 69]
      = Except.ok
        [∑ j in Finset.range 8,
          [89, 69, 76, 76, 79, 87, 32, 83, 85, 66, 77, 65, 82, 73, 78, 69].getD j 0
            * 2 ^ (8 * j),
         ∑ j in Finset.range 8,
          [89, 69, 76, 76, 79, 87, 32, 83, 85, 66, 77, 65, 82, 73, 78, 69].getD (8 + j) 0
            * 2 ^ (8 * j)] :=
  (C12_transformKey [89, 69, 76, 76, 79, 87, 32, 83, 85, 66, 77, 65, 82, 73, 78, 69]
    (by decide)).2.2 (by decide)

/-- C13: for every block `(x, y)` and every schedule of 32 words, `speck_round`
with `schedule[0], .., schedule[31]` in ascending order (the per-block loop of
`encrypt_text`) followed by `speck_inv_round` with `schedule[31], .., schedule[0]`
in descending order (the per-block loop of `decrypt_text`) returns `(x, y)`. -/
theorem C13_block_round_trip (x y : Nat) (rk : List Nat) (hx : isWord x) (hy : isWord y)
    (hk : isWords rk) (hl : rk.length = 32) :
    (encrypt_block rk (x, y)).bind (decrypt_block rk) = some (x, y) := by
  rw [encrypt_block_eq rk hl, Option.some_bind, decrypt_block_eq rk hl,
    dec_rounds_enc_rounds rk hk (x, y) ⟨hx, hy⟩]

/-- Witness of C13 at the block `(1, 2)` and the schedule `0, 1, .., 31`. -/
theorem C13_block_round_trip_witness :
    (encrypt_block (List.range 32) (1, 2)).bind (decrypt_block (List.range 32)) = some (1, 2) :=
  C13_block_round_trip 1 2 (List.range 32) (by decide) (by decide) (by decide) (by decide)

/-- C14: for every ciphertext buffer, of any length, and every schedule of 32
words, the result `R` of `decrypt_text` is empty or ends in a non-zero byte, and
the un-stripped decrypted bytes are `R` followed by zero bytes only. -/
theorem C14_decrypt_stripped (C rk : List Nat) (hC : isBytes C) (hl : rk.length = 32) :
    ∃ U R m, decrypt_unstripped C rk = some U ∧ decrypt_text C rk = some R ∧
      (R = [] ∨ R.getLast? ≠ some 0) ∧ U = R ++ List.replicate m 0 := by
  obtain ⟨m, hm, hlast⟩ := strip_zeros_decomp
    (blocks_to_bytes ((pack C ((C.length + 15) / 16)).map (dec_rounds rk)))
  exact ⟨_, _, m, decrypt_unstripped_eq C rk hC hl, decrypt_text_eq C rk hC hl, hlast, hm⟩

/-- Witness of C14 at the 3-byte ciphertext `1, 2, 3` and the schedule
`0, 1, .., 31`. -/
theorem C14_decrypt_stripped_witness :
    ∃ U R m, decrypt_unstripped [1, 2, 3] (List.range 32) = some U ∧
      decrypt_text [1, 2, 3] (List.range 32) = some R ∧
      (R = [] ∨ R.getLast? ≠ some 0) ∧ U = R ++ List.replicate m 0 :=
  C14_decrypt_stripped [1, 2, 3] (List.range 32) (by decide) (by decide)

/-- C15: the round-key schedule does not depend on the second key word: for all
`k0`, `k1` and `k1'`, `key_schedule([k0, k1])` equals `key_schedule([k0, k1'])`,
so the two keys encrypt every plaintext to the same ciphertext. -/
theorem C15_schedule_ignores_second_word (k0 k1 k1' : Nat) :
    key_schedule [k0, k1] = key_schedule [k0, k1'] ∧
    ∀ P, ((key_schedule [k0, k1]).bind fun rk => encrypt_text P rk)
      = ((key_schedule [k0, k1']).bind fun rk => encrypt_text P rk) := by
  have h : key_schedule [k0, k1] = key_schedule [k0, k1'] := by
    rw [key_schedule_eq, key_schedule_eq]
  exact ⟨h, fun P => by rw [h]⟩

/-- C16, evaluated on the code at byte index 8 of a 9-byte buffer: the shift
count of the second-word branch, `((i % 8) - 8) * 8` in `size_t` arithmetic, is
`2 ^ 64 - 64`, which is not below 64 and is not `8 * (8 % 8)`; for every index
the count of that branch is `2 ^ 64 - 64 + 8 * (i % 8)`, at least 64, and only
its residue modulo 64 is `8 * (i % 8)`. The count of the first-word branch is
`8 * (i % 8)`, below 64. -/
theorem C16_shift_count_out_of_range :
    shift_second 8 = 2 ^ 64 - 64 ∧ ¬ shift_second 8 < 64 ∧ shift_second 8 ≠ 8 * (8 % 8) ∧
    bytes_to_blocks_step [1, 1, 1, 1, 1, 1, 1, 1, 1] [(0, 0)] 8
      = write [(0, 0)] 0 (0, 0 ||| shl64 1 (2 ^ 64 - 64)) ∧
    (∀ i, shift_second i = 2 ^ 64 - 64 + 8 * (i % 8) ∧ 64 ≤ shift_second i ∧
      shift_second i % 64 = 8 * (i % 8)) ∧
    (∀ i, shift_first i = 8 * (i % 8) ∧ shift_first i < 64) := by
  have hall : ∀ i, shift_second i = 2 ^ 64 - 64 + 8 * (i % 8) := by
    intro i
    unfold shift_second
    norm_num
    omega
  refine ⟨by rw [hall]; norm_num, ?_, ?_, rfl, ?_, ?_⟩
  · rw [hall]
    norm_num
  · rw [hall]
    norm_num
  · intro i
    refine ⟨hall i, ?_, shift_second_mod i⟩
    rw [hall]
    norm_num
    omega
  · intro i
    rw [shift_first_eq]
    exact ⟨rfl, by omega⟩

/-- C18: for every plaintext `P` and every schedule of 32 words, the length of
`encrypt_text(P, schedule)` is exactly `32 * ceil(len(P) / 32)`: the block count
is `ceil(len(P) / 16)` rounded up to the next even number, and each block
serialises to 16 bytes. -/
theorem C18_ciphertext_length_exact (P rk : List Nat) (hP : isBytes P) (hl : rk.length = 32) :
    ∃ c, encrypt_text P rk = some c ∧ c.length = 32 * ((P.length + 31) / 32) ∧
      c.length = 16 * (if (P.length + 15) / 16 % 2 = 0 then (P.length + 15) / 16
        else (P.length + 15) / 16 + 1) := by
  refine ⟨_, encrypt_text_eq P rk hP hl, ?_, ?_⟩
  · rw [length_encrypt]
    unfold enc_blocks
    omega
  · rw [length_encrypt]
    unfold enc_blocks
    split <;> omega

/-- Witness of C18 at the plaintext `"Hi"` and the schedule `0, 1, .., 31`. -/
theorem C18_ciphertext_length_exact_witness :
    ∃ c, encrypt_text [72, 105] (List.range 32) = some c ∧
      c.length = 32 * (([72, 105].length + 31) / 32) ∧
      c.length = 16 * (if ([72, 105].length + 15) / 16 % 2 = 0 then ([72, 105].length + 15) / 16
        else ([72, 105].length + 15) / 16 + 1) :=
  C18_ciphertext_length_exact [72, 105] (List.range 32) (by decide) (by decide)

/-- C19, evaluated on the code at the blocks `(1, 2), (2 ^ 64 - 1, 0)`:
`bytes_to_blocks` packs bytes 8 to 15 of each 16-byte chunk by the second-word
branch, which shifts by a count of at least 64, for which the language defines
no result. With that shift yielding zero,
`bytes_to_blocks(blocks_to_bytes(bs))` is `(1, 0), (2 ^ 64 - 1, 0)`, not `bs`. -/
theorem C19_unpack_pack_undefined_shift :
    64 ≤ shift_second 8 ∧
    bytes_to_blocks_with shift_zero (blocks_to_bytes [(1, 2), (2 ^ 64 - 1, 0)])
      = some [(1, 0), (2 ^ 64 - 1, 0)] ∧
    bytes_to_blocks_with shift_zero (blocks_to_bytes [(1, 2), (2 ^ 64 - 1, 0)])
      ≠ some [(1, 2), (2 ^ 64 - 1, 0)] := by
  refine ⟨by decide, by decide, by decide⟩

/-- C20: for all 64-bit words `x`, `y` and `k`, `speck_round` with subkey `k`
applied to the result of `speck_inv_round` with subkey `k` on `(x, y)` gives back
`(x, y)`, and that result of `speck_inv_round` is a pair of 64-bit words. -/
theorem C20_round_surjective (x y k : Nat) (hx : isWord x) (hy : isWord y) (hk : isWord k) :
    speck_round (speck_inv_round x y k).1 (speck_inv_round x y k).2 k = (x, y) ∧
      isWord (speck_inv_round x y k).1 ∧ isWord (speck_inv_round x y k).2 :=
  ⟨speck_round_speck_inv_round x y k hx hy hk, speck_inv_round_fst_lt x y k,
    speck_inv_round_snd_lt x y k hx hy⟩

/-- Witness of C20 at `x = 1`, `y = 2`, `k = 3`. -/
theorem C20_round_surjective_witness :
    speck_round (speck_inv_round 1 2 3).1 (speck_inv_round 1 2 3).2 3 = (1, 2) :=
  (C20_round_surjective 1 2 3 (by decide) (by decide) (by decide)).1

end Speck
